import Mathlib

/-!
Verification of the concurrency-bounded triage job queue and the metadata
reconciliation store of the claude-github-triage repository.

The queue model is a shallow embedding of `src/tui/TriageQueue.ts`.  The
runtime is single-threaded and cooperative: `enqueue` runs its admission
loop and the `pump` loop synchronously (the synchronous prefix of
`startOne` adds the key to the active set and emits `started` before the
first `await`), and a job completion runs its terminal-event emission, the
`active.delete`, and the subsequent `pump` synchronously.  Hence every
observable state of the queue is reached by an interleaving of two atomic
transitions: an `enqueue(keys)` call and the completion (success or
failure) of one active job.  `QCmd` captures exactly these transitions and
`stepQ` executes them; the event trace records emissions in order.
-/

namespace TriageSpec

/-- Lifecycle events of `TriageQueue` (`TriageQueueEvent` in the source;
the `elapsedMs` and error-detail payloads carry no queue state and are
omitted). -/
inductive QEvent where
  | queued (k : Nat)
  | started (k : Nat)
  | success (k : Nat)
  | error (k : Nat)
  | drain
deriving DecidableEq, Repr

/-- Queue state: the pending FIFO (`this.queue`), the active set
(`this.active`, a JS `Set` modelled as a duplicate-free list in insertion
order), and the emitted event trace. -/
structure QState where
  pending : List Nat
  active : List Nat
  trace : List QEvent
deriving DecidableEq, Repr

/-- The two atomic transitions available to the environment. -/
inductive QCmd where
  | enq (keys : List Nat)
  | complete (k : Nat) (ok : Bool)
deriving DecidableEq, Repr

/-- `Set.add`: inserts `k` unless already present (JS `Set.add` is a no-op
on a present element). -/
def setAdd (a : List Nat) (k : Nat) : List Nat :=
  if k ∈ a then a else a ++ [k]

/-- `Set.delete`: removes `k`. -/
def setDelete (a : List Nat) (k : Nat) : List Nat :=
  a.filter (fun x => x ≠ k)

/-- The admission loop of `enqueue` (TriageQueue.ts lines 67-73): each key
not already pending or active is appended to the FIFO and a `queued` event
is emitted. -/
def enqueueKeys (s : QState) (keys : List Nat) : QState :=
  keys.foldl
    (fun t k =>
      if k ∈ t.pending ∨ k ∈ t.active then t
      else { t with pending := t.pending ++ [k], trace := t.trace ++ [QEvent.queued k] })
    s

/-- The `while` loop of `pump` (lines 93-98): while the active set is below
the concurrency cap and the FIFO is non-empty, shift the head and run the
synchronous prefix of `startOne` (add to active, emit `started`). -/
def pumpLoop (N : Nat) : List Nat → List Nat → List QEvent → List Nat × List Nat × List QEvent
  | [], a, t => ([], a, t)
  | k :: rest, a, t =>
    if a.length < N then pumpLoop N rest (setAdd a k) (t ++ [QEvent.started k])
    else (k :: rest, a, t)

/-- `pump` (lines 89-105): run the loop, then emit `drain` when both the
FIFO and the active set are empty.  (The `running` re-entrancy flag never
triggers in the cooperative schedule: `pump` contains no suspension point,
so it is omitted.) -/
def pump (N : Nat) (s : QState) : QState :=
  let r := pumpLoop N s.pending s.active s.trace
  if r.1 = [] ∧ r.2.1 = [] then ⟨r.1, r.2.1, r.2.2 ++ [QEvent.drain]⟩
  else ⟨r.1, r.2.1, r.2.2⟩

/-- One atomic transition.  `enq` is `enqueue` (admission loop, then
`pump`).  `complete k ok` is the tail of `startOne` for an active job `k`
(lines 138-153): emit the terminal event, remove `k` from the active set,
then `pump`.  A completion for a key that is not active cannot arise in
the real schedule and is a no-op. -/
def stepQ (N : Nat) (s : QState) : QCmd → QState
  | QCmd.enq keys => pump N (enqueueKeys s keys)
  | QCmd.complete k ok =>
    if k ∈ s.active then
      pump N { pending := s.pending
               active := setDelete s.active k
               trace := s.trace ++ [if ok then QEvent.success k else QEvent.error k] }
    else s

/-- The freshly constructed queue. -/
def initQ : QState := ⟨[], [], []⟩

/-- Execute a sequence of transitions from the fresh queue. -/
def runQ (N : Nat) (cmds : List QCmd) : QState :=
  cmds.foldl (stepQ N) initQ

theorem setAdd_length_le (a : List Nat) (k : Nat) :
    (setAdd a k).length ≤ a.length + 1 := by
  unfold setAdd; split <;> simp

theorem pump_active (N : Nat) (s : QState) :
    (pump N s).active = (pumpLoop N s.pending s.active s.trace).2.1 := by
  simp only [pump]; split <;> rfl

theorem pump_pending (N : Nat) (s : QState) :
    (pump N s).pending = (pumpLoop N s.pending s.active s.trace).1 := by
  simp only [pump]; split <;> rfl

theorem pumpLoop_active_le (N : Nat) :
    ∀ (p a : List Nat) (t : List QEvent), a.length ≤ N →
      ((pumpLoop N p a t).2.1).length ≤ N
  | [], a, t, h => h
  | k :: rest, a, t, h => by
    unfold pumpLoop
    split
    · next hlt =>
      apply pumpLoop_active_le
      calc (setAdd a k).length ≤ a.length + 1 := setAdd_length_le a k
        _ ≤ N := hlt
    · exact h

theorem enqueueKeys_active (keys : List Nat) :
    ∀ s : QState, (enqueueKeys s keys).active = s.active := by
  induction keys with
  | nil => intro s; rfl
  | cons k ks ih =>
    intro s
    unfold enqueueKeys
    simp only [List.foldl_cons]
    split
    · exact ih s
    · exact ih _

theorem stepQ_active_le (N : Nat) (s : QState) (c : QCmd)
    (h : s.active.length ≤ N) : ((stepQ N s c).active).length ≤ N := by
  cases c with
  | enq keys =>
    simp only [stepQ, pump_active]
    rw [enqueueKeys_active]
    exact pumpLoop_active_le N _ _ _ h
  | complete k ok =>
    simp only [stepQ]
    split
    · rw [pump_active]
      apply pumpLoop_active_le
      calc (setDelete s.active k).length ≤ s.active.length := List.length_filter_le _ _
        _ ≤ N := h
    · exact h

theorem runQ_active_le (N : Nat) (cmds : List QCmd) :
    ((runQ N cmds).active).length ≤ N := by
  suffices h : ∀ s : QState, s.active.length ≤ N →
      ((cmds.foldl (stepQ N) s).active).length ≤ N by
    exact h initQ (by simp [initQ])
  induction cmds with
  | nil => intro s hs; exact hs
  | cons c cs ih =>
    intro s hs
    exact ih _ (stepQ_active_le N s c hs)

/-- C1: for every sequence of enqueue calls and job completions on a queue
with concurrency cap `N`, the size of the active set never exceeds `N`.
The `pump` loop only starts a job while `active.size < N`, and a
completing job is removed from the active set before `pump` runs again;
every observable point of execution is the state after some prefix of the
transition sequence, so the bound holds at every point. -/
theorem claim_C1_active_never_exceeds_cap (N : Nat) (cmds : List QCmd) :
    ((runQ N cmds).active).length ≤ N :=
  runQ_active_le N cmds

/-- Occurrences of an event in a trace. -/
def countEv (e : QEvent) (t : List QEvent) : Nat := t.count e

theorem countEv_append_single (e f : QEvent) (t : List QEvent) :
    countEv e (t ++ [f]) = countEv e t + (if f = e then 1 else 0) := by
  simp [countEv, List.count_append, List.count_cons, List.count_nil]

theorem countEv_append_none (e : QEvent) (t u : List QEvent)
    (h : ∀ f ∈ u, f ≠ e) : countEv e (t ++ u) = countEv e t := by
  induction u generalizing t with
  | nil => simp
  | cons f fs ih =>
    have h1 : t ++ f :: fs = (t ++ [f]) ++ fs := by simp
    rw [h1, ih _ (fun g hg => h g (List.mem_cons_of_mem f hg)),
      countEv_append_single]
    simp [h f (List.mem_cons_self f fs)]

theorem mem_of_countEv_pos (e : QEvent) (t : List QEvent) :
    e ∈ t ↔ 0 < countEv e t := by
  simp [countEv, List.count_pos_iff]

/-- Per-key event accounting: every `started` emission is matched by a
terminal emission, except for the jobs currently active. -/
def acct (a : List Nat) (t : List QEvent) : Prop :=
  ∀ k, countEv (QEvent.started k) t
    = countEv (QEvent.success k) t + countEv (QEvent.error k) t
      + (if k ∈ a then 1 else 0)

/-- Reachable-state invariant of the queue: FIFO and active set are
duplicate-free and disjoint, the active set is capped, the FIFO is
non-empty only when the cap is saturated (the pump loop has run), and the
event accounting holds. -/
def QInv (N : Nat) (s : QState) : Prop :=
  s.pending.Nodup ∧ s.active.Nodup ∧ (∀ k, k ∈ s.pending → k ∉ s.active) ∧
  s.active.length ≤ N ∧ (s.pending ≠ [] → N ≤ s.active.length) ∧
  acct s.active s.trace

theorem acct_append_started (a : List Nat) (t : List QEvent) (k : Nat)
    (hk : k ∉ a) (h : acct a t) :
    acct (a ++ [k]) (t ++ [QEvent.started k]) := by
  intro j
  rw [countEv_append_single, countEv_append_single, countEv_append_single]
  by_cases hj : j = k
  · subst hj
    simp [h j, hk]
  · have : QEvent.started k ≠ QEvent.started j := by
      simp [Ne.symm hj]
    simp only [List.mem_append, List.mem_singleton]
    have hjk : (j ∈ a ∨ j = k) ↔ j ∈ a := by
      constructor
      · rintro (hja | rfl)
        · exact hja
        · exact absurd rfl hj
      · exact Or.inl
    simp [Ne.symm hj, hjk, h j]

/-- Core behaviour of the pump loop: it preserves the structural
invariants, only appends `started` events, preserves the pending/active
multiset, and on exit either the FIFO is empty or the cap is reached. -/
theorem pumpLoop_main (N : Nat) :
    ∀ (p a : List Nat) (t : List QEvent),
      p.Nodup → a.Nodup → (∀ k, k ∈ p → k ∉ a) → acct a t →
      (pumpLoop N p a t).1.Nodup ∧ (pumpLoop N p a t).2.1.Nodup ∧
      (∀ k, k ∈ (pumpLoop N p a t).1 → k ∉ (pumpLoop N p a t).2.1) ∧
      acct (pumpLoop N p a t).2.1 (pumpLoop N p a t).2.2 ∧
      ((pumpLoop N p a t).1 ≠ [] → N ≤ (pumpLoop N p a t).2.1.length) ∧
      ((pumpLoop N p a t).1 ++ (pumpLoop N p a t).2.1).Perm (p ++ a) ∧
      (∃ u, (pumpLoop N p a t).2.2 = t ++ u ∧ ∀ e ∈ u, ∃ j, e = QEvent.started j)
  | [], a, t, hp, ha, hd, hac => by
    refine ⟨by simp [pumpLoop], by simpa [pumpLoop] using ha, by simp [pumpLoop],
      by simpa [pumpLoop] using hac, by simp [pumpLoop], by simp [pumpLoop],
      ⟨[], by simp [pumpLoop], by simp⟩⟩
  | k :: rest, a, t, hp, ha, hd, hac => by
    unfold pumpLoop
    split
    · next hlt =>
      have hka : k ∉ a := hd k (List.mem_cons_self k rest)
      have hset : setAdd a k = a ++ [k] := by simp [setAdd, hka]
      rw [hset]
      have hrest : rest.Nodup := (List.nodup_cons.mp hp).2
      have hknr : k ∉ rest := (List.nodup_cons.mp hp).1
      have ha2 : (a ++ [k]).Nodup := by
        simp [List.nodup_append, ha, hka]
      have hd2 : ∀ j, j ∈ rest → j ∉ a ++ [k] := by
        intro j hj
        simp only [List.mem_append, List.mem_singleton]
        rintro (hja | rfl)
        · exact hd j (List.mem_cons_of_mem k hj) hja
        · exact hknr hj
      have hac2 : acct (a ++ [k]) (t ++ [QEvent.started k]) :=
        acct_append_started a t k hka hac
      obtain ⟨h1, h2, h3, h4, h5, h6, u, hu, hus⟩ :=
        pumpLoop_main N rest (a ++ [k]) (t ++ [QEvent.started k]) hrest ha2 hd2 hac2
      refine ⟨h1, h2, h3, h4, h5, ?_, ?_⟩
      · refine h6.trans ?_
        have h7 : rest ++ (a ++ [k]) = (rest ++ a) ++ [k] := by simp
        rw [h7]
        simpa using List.perm_append_singleton k (rest ++ a)
      · exact ⟨QEvent.started k :: u, by simp [hu], by
          intro e he
          rcases List.mem_cons.mp he with rfl | he2
          · exact ⟨k, rfl⟩
          · exact hus e he2⟩
    · next hge =>
      refine ⟨hp, ha, hd, hac, fun _ => Nat.le_of_not_lt hge, by simp, ⟨[], by simp, by simp⟩⟩

theorem pump_eq (N : Nat) (s : QState) :
    pump N s =
      ⟨(pumpLoop N s.pending s.active s.trace).1,
       (pumpLoop N s.pending s.active s.trace).2.1,
       (pumpLoop N s.pending s.active s.trace).2.2 ++
         (if (pumpLoop N s.pending s.active s.trace).1 = [] ∧
             (pumpLoop N s.pending s.active s.trace).2.1 = [] then [QEvent.drain] else [])⟩ := by
  simp only [pump]
  split
  · next h => simp [h]
  · next h => simp [h]

theorem acct_extend_neutral (a : List Nat) (t u : List QEvent) (h : acct a t)
    (hu : ∀ e ∈ u, (∃ j, e = QEvent.queued j) ∨ e = QEvent.drain) :
    acct a (t ++ u) := by
  intro k
  have hs : ∀ f ∈ u, f ≠ QEvent.started k := by
    intro f hf
    rcases hu f hf with ⟨j, rfl⟩ | rfl <;> simp
  have hsu : ∀ f ∈ u, f ≠ QEvent.success k := by
    intro f hf
    rcases hu f hf with ⟨j, rfl⟩ | rfl <;> simp
  have her : ∀ f ∈ u, f ≠ QEvent.error k := by
    intro f hf
    rcases hu f hf with ⟨j, rfl⟩ | rfl <;> simp
  rw [countEv_append_none _ _ _ hs, countEv_append_none _ _ _ hsu,
    countEv_append_none _ _ _ her]
  exact h k

theorem acct_complete (a : List Nat) (t : List QEvent) (k : Nat) (ok : Bool)
    (hk : k ∈ a) (h : acct a t) :
    acct (setDelete a k) (t ++ [if ok then QEvent.success k else QEvent.error k]) := by
  intro j
  have hjmem : j ∈ setDelete a k ↔ (j ∈ a ∧ j ≠ k) := by
    simp [setDelete]
  by_cases hj : j = k
  · subst hj
    have hnot : j ∉ setDelete a j := by simp [setDelete]
    rw [countEv_append_single, countEv_append_single, countEv_append_single]
    cases ok <;> simp [hnot, h j, hk] <;> omega
  · rw [countEv_append_single, countEv_append_single, countEv_append_single]
    have hmem2 : j ∈ setDelete a k ↔ j ∈ a := by
      rw [hjmem]; exact and_iff_left hj
    cases ok <;> simp [Ne.symm hj, hmem2, h j]

/-- `pump` establishes the full reachable-state invariant from the loop
preconditions. -/
theorem pump_inv (N : Nat) (s : QState) (hp : s.pending.Nodup)
    (ha : s.active.Nodup) (hd : ∀ k, k ∈ s.pending → k ∉ s.active)
    (hlen : s.active.length ≤ N) (hac : acct s.active s.trace) :
    QInv N (pump N s) := by
  obtain ⟨h1, h2, h3, h4, h5, _h6, u, hu, hus⟩ :=
    pumpLoop_main N s.pending s.active s.trace hp ha hd hac
  rw [pump_eq]
  refine ⟨h1, h2, h3, pumpLoop_active_le N _ _ _ hlen, h5, ?_⟩
  apply acct_extend_neutral _ _ _ h4
  split <;> simp

/-- Liveness of a transition: an `enqueue` call always runs, a completion
only ever occurs for a job that is actually active. -/
def cmdLive (s : QState) : QCmd → Prop
  | QCmd.enq _ => True
  | QCmd.complete k _ => k ∈ s.active

theorem enqueueKeys_main (keys : List Nat) :
    ∀ s : QState,
      (enqueueKeys s keys).active = s.active ∧
      (∃ q, (enqueueKeys s keys).trace = s.trace ++ q ∧
        ∀ e ∈ q, ∃ j, e = QEvent.queued j) ∧
      (s.pending.Nodup → (∀ k, k ∈ s.pending → k ∉ s.active) →
        (enqueueKeys s keys).pending.Nodup ∧
        ∀ k, k ∈ (enqueueKeys s keys).pending → k ∉ s.active) := by
  induction keys with
  | nil =>
    intro s
    exact ⟨rfl, ⟨[], by simp [enqueueKeys], by simp⟩, fun hp hd => ⟨hp, hd⟩⟩
  | cons j js ih =>
    intro s
    show (enqueueKeys _ (j :: js)).active = s.active ∧ _
    unfold enqueueKeys
    simp only [List.foldl_cons]
    split
    · next hmem =>
      exact ih s
    · next hmem =>
      push_neg at hmem
      set s1 : QState :=
        { s with pending := s.pending ++ [j], trace := s.trace ++ [QEvent.queued j] } with hs1
      obtain ⟨ha, ⟨q, hq, hqe⟩, hrest⟩ := ih s1
      refine ⟨ha, ⟨QEvent.queued j :: q, ?_, ?_⟩, ?_⟩
      · show (enqueueKeys s1 js).trace = _
        rw [show enqueueKeys s1 js = js.foldl _ s1 from rfl] at hq ⊢
        rw [hq]
        simp [hs1]
      · intro e he
        rcases List.mem_cons.mp he with rfl | he2
        · exact ⟨j, rfl⟩
        · exact hqe e he2
      · intro hp hd
        have hp1 : s1.pending.Nodup := by
          simp only [hs1]
          simp [List.nodup_append, hp, hmem.1]
        have hd1 : ∀ k, k ∈ s1.pending → k ∉ s1.active := by
          intro k hk
          simp only [hs1] at hk ⊢
          rcases List.mem_append.mp hk with hk2 | hk2
          · exact hd k hk2
          · rw [List.mem_singleton.mp hk2]; exact hmem.2
        obtain ⟨hnd, hdd⟩ := hrest hp1 hd1
        exact ⟨hnd, fun k hk => hdd k hk⟩

/-- Each transition preserves the reachable-state invariant. -/
theorem stepQ_inv (N : Nat) (s : QState) (c : QCmd) (h : QInv N s) :
    QInv N (stepQ N s c) := by
  obtain ⟨hp, ha, hd, hlen, hpump, hac⟩ := h
  cases c with
  | enq keys =>
    obtain ⟨hact, ⟨q, hq, hqe⟩, hrest⟩ := enqueueKeys_main keys s
    obtain ⟨hnd, hdd⟩ := hrest hp hd
    show QInv N (pump N (enqueueKeys s keys))
    apply pump_inv
    · exact hnd
    · rw [hact]; exact ha
    · intro k hk; rw [hact]; exact hdd k hk
    · rw [hact]; exact hlen
    · rw [hact, hq]
      apply acct_extend_neutral _ _ _ hac
      intro e he
      exact Or.inl (hqe e he)
  | complete k ok =>
    show QInv N (stepQ N s (QCmd.complete k ok))
    simp only [stepQ]
    split
    · next hk =>
      apply pump_inv
      · exact hp
      · exact ha.filter _
      · intro j hj
        simp only [setDelete, List.mem_filter]
        intro ⟨hja, _⟩
        exact hd j hj hja
      · calc (setDelete s.active k).length ≤ s.active.length :=
            List.length_filter_le _ _
          _ ≤ N := hlen
      · exact acct_complete s.active s.trace k ok hk hac
    · exact ⟨hp, ha, hd, hlen, hpump, hac⟩

theorem initQ_inv (N : Nat) : QInv N initQ := by
  refine ⟨by simp [initQ], by simp [initQ], by simp [initQ], by simp [initQ],
    by simp [initQ], ?_⟩
  intro k
  simp [initQ, countEv]

/-- Every state reached from the fresh queue satisfies the invariant. -/
theorem runQ_inv (N : Nat) (cmds : List QCmd) : QInv N (runQ N cmds) := by
  suffices h : ∀ s : QState, QInv N s → QInv N (cmds.foldl (stepQ N) s) from
    h initQ (initQ_inv N)
  induction cmds with
  | nil => intro s hs; exact hs
  | cons c cs ih =>
    intro s hs
    exact ih _ (stepQ_inv N s c hs)

theorem pumpLoop_trace (N : Nat) :
    ∀ (p a : List Nat) (t : List QEvent),
      ∃ u, (pumpLoop N p a t).2.2 = t ++ u ∧ ∀ e ∈ u, ∃ j, e = QEvent.started j
  | [], a, t => ⟨[], by simp [pumpLoop], by simp⟩
  | k :: rest, a, t => by
    unfold pumpLoop
    split
    · obtain ⟨u, hu, hus⟩ := pumpLoop_trace N rest (setAdd a k) (t ++ [QEvent.started k])
      refine ⟨QEvent.started k :: u, by simp [hu], ?_⟩
      intro e he
      rcases List.mem_cons.mp he with rfl | he2
      · exact ⟨k, rfl⟩
      · exact hus e he2
    · exact ⟨[], by simp, by simp⟩

/-- Trace behaviour of `pump`: it appends only `started` events plus at
most one final `drain`, and it appends `drain` exactly when it leaves both
the FIFO and the active set empty. -/
theorem pump_spec (N : Nat) (s : QState) :
    ∃ u, (pump N s).trace = s.trace ++ u ∧
      (∀ e ∈ u, (∃ j, e = QEvent.started j) ∨ e = QEvent.drain) ∧
      (QEvent.drain ∈ u ↔ ((pump N s).pending = [] ∧ (pump N s).active = [])) ∧
      countEv QEvent.drain u ≤ 1 ∧
      (QEvent.drain ∈ u → ∃ w, u = w ++ [QEvent.drain] ∧ QEvent.drain ∉ w) := by
  obtain ⟨w, hw, hws⟩ := pumpLoop_trace N s.pending s.active s.trace
  have hwd : QEvent.drain ∉ w := by
    intro hmem
    obtain ⟨j, hj⟩ := hws _ hmem
    simp at hj
  rw [pump_eq]
  dsimp only
  split
  · next hc =>
    refine ⟨w ++ [QEvent.drain], by rw [hw]; simp, ?_, ?_, ?_, ?_⟩
    · intro e he
      rcases List.mem_append.mp he with he2 | he2
      · exact Or.inl (hws e he2)
      · exact Or.inr (List.mem_singleton.mp he2)
    · simp [hc.1, hc.2]
    · rw [countEv_append_single]
      simp [countEv, List.count_eq_zero.mpr hwd]
    · exact fun _ => ⟨w, rfl, hwd⟩
  · next hc =>
    refine ⟨w, by rw [hw]; simp, fun e he => Or.inl (hws e he),
      iff_of_false hwd hc, ?_, fun hmem => absurd hmem hwd⟩
    simp [countEv, List.count_eq_zero.mpr hwd]

/-- Trace behaviour of one transition: events are appended, `drain` is
appended (at most once, and last) precisely when the transition actually
ran (`cmdLive`) and left the queue with no pending and no active work. -/
theorem stepQ_drain_spec (N : Nat) (s : QState) (c : QCmd) :
    ∃ u, (stepQ N s c).trace = s.trace ++ u ∧
      (QEvent.drain ∈ u ↔
        ((stepQ N s c).pending = [] ∧ (stepQ N s c).active = [] ∧ cmdLive s c)) ∧
      countEv QEvent.drain u ≤ 1 ∧
      (QEvent.drain ∈ u → ∃ w, u = w ++ [QEvent.drain] ∧ QEvent.drain ∉ w) := by
  cases c with
  | enq keys =>
    obtain ⟨_, ⟨q, hq, hqe⟩, _⟩ := enqueueKeys_main keys s
    have hqd : QEvent.drain ∉ q := by
      intro hmem
      obtain ⟨j, hj⟩ := hqe _ hmem
      simp at hj
    obtain ⟨up, hup, _hupe, hupd, hupc, huplast⟩ := pump_spec N (enqueueKeys s keys)
    refine ⟨q ++ up, ?_, ?_, ?_, ?_⟩
    · show (pump N (enqueueKeys s keys)).trace = _
      rw [hup, hq]
      simp
    · rw [List.mem_append]
      constructor
      · rintro (hmem | hmem)
        · exact absurd hmem hqd
        · exact ⟨(hupd.mp hmem).1, (hupd.mp hmem).2, trivial⟩
      · rintro ⟨h1, h2, _⟩
        exact Or.inr (hupd.mpr ⟨h1, h2⟩)
    · have hq0 : countEv QEvent.drain q = 0 := by
        simp [countEv, List.count_eq_zero.mpr hqd]
      have hqu : countEv QEvent.drain (q ++ up) =
          countEv QEvent.drain q + countEv QEvent.drain up := by
        simp [countEv, List.count_append]
      omega
    · intro hmem
      have hmem2 : QEvent.drain ∈ up := by
        rcases List.mem_append.mp hmem with h | h
        · exact absurd h hqd
        · exact h
      obtain ⟨w, hw, hwd⟩ := huplast hmem2
      refine ⟨q ++ w, by rw [hw]; simp, ?_⟩
      simp [hqd, hwd]
  | complete k ok =>
    show ∃ u, (stepQ N s (QCmd.complete k ok)).trace = _ ∧ _
    simp only [stepQ]
    split
    · next hk =>
      set term : QEvent := if ok then QEvent.success k else QEvent.error k with hterm
      have htd : term ≠ QEvent.drain := by
        cases ok <;> simp [hterm]
      set s1 : QState :=
        { pending := s.pending, active := setDelete s.active k,
          trace := s.trace ++ [term] } with hs1
      obtain ⟨up, hup, _hupe, hupd, hupc, huplast⟩ := pump_spec N s1
      refine ⟨term :: up, ?_, ?_, ?_, ?_⟩
      · rw [hup]
        simp [hs1]
      · rw [List.mem_cons]
        constructor
        · rintro (hmem | hmem)
          · exact absurd hmem.symm htd
          · exact ⟨(hupd.mp hmem).1, (hupd.mp hmem).2, hk⟩
        · rintro ⟨h1, h2, _⟩
          exact Or.inr (hupd.mpr ⟨h1, h2⟩)
      · have h0 : countEv QEvent.drain (term :: up) = countEv QEvent.drain up := by
          simp [countEv, List.count_cons, Ne.symm htd]
        omega
      · intro hmem
        have hmem2 : QEvent.drain ∈ up := by
          rcases List.mem_cons.mp hmem with h | h
          · exact absurd h.symm htd
          · exact h
        obtain ⟨w, hw, hwd⟩ := huplast hmem2
        refine ⟨term :: w, by rw [hw]; simp, ?_⟩
        simp [hwd, Ne.symm htd]
    · next hk =>
      refine ⟨[], by simp, ?_, by simp [countEv], by simp⟩
      exact iff_of_false (by simp) (by rintro ⟨_, _, h⟩; exact hk h)

/-- C2 (amended): every `drain` emission happens at a point where both the
FIFO and the active set are empty, at most one `drain` is emitted per
transition and always as its last event, and at any `drain` emission every
`started` job has already received its terminal (`success` or `error`)
event.  However a `drain` is emitted not only on a transition from
outstanding work to no work: any `enqueue` call that finds the queue idle
and admits no key (for example `enqueue([])`) also re-emits `drain`.
The exact characterisation: a transition emits `drain` iff it actually ran
(`cmdLive`) and its post-state has empty FIFO and empty active set. -/
theorem claim_C2_amended_drain (N : Nat) (cmds : List QCmd) (c : QCmd) :
    ∃ u, (stepQ N (runQ N cmds) c).trace = (runQ N cmds).trace ++ u ∧
      (QEvent.drain ∈ u ↔
        ((stepQ N (runQ N cmds) c).pending = [] ∧
          (stepQ N (runQ N cmds) c).active = [] ∧ cmdLive (runQ N cmds) c)) ∧
      countEv QEvent.drain u ≤ 1 ∧
      (QEvent.drain ∈ u → u.getLast? = some QEvent.drain) ∧
      (QEvent.drain ∈ u → ∀ k,
        countEv (QEvent.started k) (stepQ N (runQ N cmds) c).trace =
          countEv (QEvent.success k) (stepQ N (runQ N cmds) c).trace +
            countEv (QEvent.error k) (stepQ N (runQ N cmds) c).trace) := by
  obtain ⟨u, hu, hiff, hcnt, hlast⟩ := stepQ_drain_spec N (runQ N cmds) c
  refine ⟨u, hu, hiff, hcnt, ?_, ?_⟩
  · intro hmem
    obtain ⟨w, hw, _⟩ := hlast hmem
    rw [hw]
    simp
  · intro hmem k
    have hinv : QInv N (stepQ N (runQ N cmds) c) :=
      stepQ_inv N (runQ N cmds) c (runQ_inv N cmds)
    obtain ⟨_, _, _, _, _, hac⟩ := hinv
    have hempty : (stepQ N (runQ N cmds) c).active = [] := (hiff.mp hmem).2.1
    have := hac k
    rw [hempty] at this
    simpa using this

/-- Per-transition work states of a run, starting with the fresh queue. -/
def statesQ (N : Nat) (cmds : List QCmd) : List QState :=
  cmds.scanl (stepQ N) initQ

/-- Does the queue hold outstanding (pending or active) work? -/
def hasWorkQ (s : QState) : Bool :=
  !s.pending.isEmpty || !s.active.isEmpty

/-- Number of transitions of a run that go from outstanding work to no
outstanding work. -/
def workTransitions (N : Nat) (cmds : List QCmd) : Nat :=
  ((statesQ N cmds).zip (statesQ N cmds).tail).countP
    (fun pr => hasWorkQ pr.1 && !hasWorkQ pr.2)

/-- C2 counterexample: calling `enqueue` with an empty key list on the
fresh (idle) queue emits a `drain` event although no transition from
outstanding work to no work has occurred, so `drain` is not emitted
exactly once per such transition. -/
theorem claim_C2_counterexample :
    countEv QEvent.drain (runQ 3 [QCmd.enq []]).trace = 1 ∧
    workTransitions 3 [QCmd.enq []] = 0 := by
  decide

theorem claim_C2_witness :
    countEv (QEvent.started 1)
        (stepQ 2 (runQ 2 [QCmd.enq [1]]) (QCmd.complete 1 true)).trace =
      countEv (QEvent.success 1)
          (stepQ 2 (runQ 2 [QCmd.enq [1]]) (QCmd.complete 1 true)).trace +
        countEv (QEvent.error 1)
          (stepQ 2 (runQ 2 [QCmd.enq [1]]) (QCmd.complete 1 true)).trace := by
  obtain ⟨u, hu, hiff, hc, hlast, hacc⟩ :=
    claim_C2_amended_drain 2 [QCmd.enq [1]] (QCmd.complete 1 true)
  exact hacc (hiff.mpr ⟨by decide, by decide,
    show (1 : Nat) ∈ (runQ 2 [QCmd.enq [1]]).active by decide⟩) 1

theorem pump_noop_of_empty (N : Nat) (s : QState) (hp : s.pending = [])
    (ha : s.active ≠ []) : pump N s = s := by
  obtain ⟨p, a, t⟩ := s
  simp only at hp ha
  subst hp
  simp [pump, pumpLoop, ha]

theorem pump_noop_of_full (N : Nat) (s : QState) (hp : s.pending ≠ [])
    (ha : N ≤ s.active.length) : pump N s = s := by
  obtain ⟨p, a, t⟩ := s
  simp only at hp ha
  obtain ⟨k, rest, rfl⟩ := List.exists_cons_of_ne_nil hp
  simp [pump, pumpLoop, Nat.not_lt.mpr ha]

theorem enqueueKeys_single_mem (s : QState) (k : Nat)
    (h : k ∈ s.pending ∨ k ∈ s.active) : enqueueKeys s [k] = s := by
  simp [enqueueKeys, h]

theorem enqueueKeys_single_fresh (s : QState) (k : Nat) (h1 : k ∉ s.pending)
    (h2 : k ∉ s.active) :
    enqueueKeys s [k] =
      { s with pending := s.pending ++ [k], trace := s.trace ++ [QEvent.queued k] } := by
  simp [enqueueKeys, h1, h2]

theorem enqueueKeys_no_queued_of_mem (k : Nat) (keys : List Nat) :
    ∀ s : QState, (k ∈ s.pending ∨ k ∈ s.active) →
      countEv (QEvent.queued k) (enqueueKeys s keys).trace =
        countEv (QEvent.queued k) s.trace ∧
      (k ∈ (enqueueKeys s keys).pending ∨ k ∈ (enqueueKeys s keys).active) := by
  induction keys with
  | nil => intro s h; exact ⟨rfl, h⟩
  | cons j js ih =>
    intro s h
    show countEv _ (enqueueKeys _ (j :: js)).trace = _ ∧ _
    unfold enqueueKeys
    simp only [List.foldl_cons]
    split
    · exact ih s h
    · next hmem =>
      push_neg at hmem
      have hjk : j ≠ k := by
        rintro rfl
        rcases h with h | h
        · exact hmem.1 h
        · exact hmem.2 h
      set s1 : QState :=
        { s with pending := s.pending ++ [j], trace := s.trace ++ [QEvent.queued j] } with hs1
      have h1 : k ∈ s1.pending ∨ k ∈ s1.active := by
        rcases h with h | h
        · exact Or.inl (by simp [hs1, h])
        · exact Or.inr (by simp [hs1, h])
      obtain ⟨hcnt, hmem2⟩ := ih s1 h1
      refine ⟨?_, hmem2⟩
      have hstep : countEv (QEvent.queued k) s1.trace =
          countEv (QEvent.queued k) s.trace := by
        simp only [hs1]
        rw [countEv_append_single]
        simp [hjk]
      calc countEv (QEvent.queued k) (enqueueKeys s1 js).trace
          = countEv (QEvent.queued k) s1.trace := hcnt
        _ = countEv (QEvent.queued k) s.trace := hstep

/-- C3: per-key idempotence of `enqueue`.  (i) Enqueuing a key already in
the pending FIFO or the active set of a reachable queue state changes
nothing at all (no state change, no event).  (ii) More generally any
`enqueue` call whose key list contains such a key emits no additional
`queued` event for it.  (iii) Enqueuing a fresh key appends it once to the
pending FIFO (admission loop), emits exactly one `queued` event for it,
and afterwards the key sits in the FIFO or the active set, the combined
pending-plus-active population having grown by exactly one. -/
theorem claim_C3_enqueue_per_key_idempotent (N : Nat) (cmds : List QCmd) (k : Nat) :
    ((k ∈ (runQ N cmds).pending ∨ k ∈ (runQ N cmds).active) →
      stepQ N (runQ N cmds) (QCmd.enq [k]) = runQ N cmds) ∧
    (∀ keys, (k ∈ (runQ N cmds).pending ∨ k ∈ (runQ N cmds).active) →
      countEv (QEvent.queued k) (stepQ N (runQ N cmds) (QCmd.enq keys)).trace =
        countEv (QEvent.queued k) (runQ N cmds).trace) ∧
    (k ∉ (runQ N cmds).pending → k ∉ (runQ N cmds).active →
      (enqueueKeys (runQ N cmds) [k]).pending = (runQ N cmds).pending ++ [k] ∧
      countEv (QEvent.queued k) (stepQ N (runQ N cmds) (QCmd.enq [k])).trace =
        countEv (QEvent.queued k) (runQ N cmds).trace + 1 ∧
      (k ∈ (stepQ N (runQ N cmds) (QCmd.enq [k])).pending ∨
        k ∈ (stepQ N (runQ N cmds) (QCmd.enq [k])).active) ∧
      (stepQ N (runQ N cmds) (QCmd.enq [k])).pending.length +
          (stepQ N (runQ N cmds) (QCmd.enq [k])).active.length =
        (runQ N cmds).pending.length + (runQ N cmds).active.length + 1) := by
  set s : QState := runQ N cmds with hs
  obtain ⟨hp, ha, hd, hlen, hpumped, hac⟩ := runQ_inv N cmds
  rw [← hs] at hp ha hd hlen hpumped hac
  refine ⟨?_, ?_, ?_⟩
  · intro hmem
    show pump N (enqueueKeys s [k]) = s
    rw [enqueueKeys_single_mem s k hmem]
    by_cases hsp : s.pending = []
    · apply pump_noop_of_empty N s hsp
      rcases hmem with h | h
      · rw [hsp] at h; cases h
      · exact List.ne_nil_of_mem h
    · exact pump_noop_of_full N s hsp (hpumped hsp)
  · intro keys hmem
    show countEv _ (pump N (enqueueKeys s keys)).trace = _
    obtain ⟨hcnt, _⟩ := enqueueKeys_no_queued_of_mem k keys s hmem
    obtain ⟨up, hup, hupe, _, _, _⟩ := pump_spec N (enqueueKeys s keys)
    rw [hup, countEv_append_none, hcnt]
    intro f hf
    rcases hupe f hf with ⟨j, rfl⟩ | rfl <;> simp
  · intro h1 h2
    have hfresh := enqueueKeys_single_fresh s k h1 h2
    set s1 : QState :=
      { s with pending := s.pending ++ [k], trace := s.trace ++ [QEvent.queued k] } with hs1
    have hp1 : s1.pending.Nodup := by
      simp only [hs1]
      simp [List.nodup_append, hp, h1]
    have hd1 : ∀ j, j ∈ s1.pending → j ∉ s1.active := by
      intro j hj
      simp only [hs1] at hj ⊢
      rcases List.mem_append.mp hj with hj2 | hj2
      · exact hd j hj2
      · rw [List.mem_singleton.mp hj2]; exact h2
    have hac1 : acct s1.active s1.trace := by
      simp only [hs1]
      exact acct_extend_neutral s.active s.trace [QEvent.queued k] hac
        (by intro e he; exact Or.inl ⟨k, List.mem_singleton.mp he⟩)
    obtain ⟨_, _, _, _, _, hperm, _⟩ :=
      pumpLoop_main N s1.pending s1.active s1.trace hp1 (by simp only [hs1]; exact ha)
        hd1 hac1
    obtain ⟨up, hup, hupe, _, _, _⟩ := pump_spec N s1
    refine ⟨by rw [hfresh], ?_, ?_, ?_⟩
    · show countEv _ (pump N (enqueueKeys s [k])).trace = _
      rw [hfresh, hup, countEv_append_none]
      · simp only [hs1]
        rw [countEv_append_single]
        simp
      · intro f hf
        rcases hupe f hf with ⟨j, rfl⟩ | rfl <;> simp
    · show k ∈ (pump N (enqueueKeys s [k])).pending ∨
        k ∈ (pump N (enqueueKeys s [k])).active
      rw [hfresh, pump_eq]
      dsimp only
      have hk1 : k ∈ s1.pending ++ s1.active := by
        simp [hs1]
      have hk2 := (hperm.mem_iff).mpr hk1
      rcases List.mem_append.mp hk2 with h | h
      · exact Or.inl h
      · exact Or.inr h
    · show (pump N (enqueueKeys s [k])).pending.length +
        (pump N (enqueueKeys s [k])).active.length = _
      rw [hfresh, pump_eq]
      dsimp only
      have hlen2 := hperm.length_eq
      simp only [hs1, List.length_append, List.length_singleton] at hlen2
      omega

theorem claim_C3_witness :
    stepQ 2 (runQ 2 [QCmd.enq [1]]) (QCmd.enq [1]) = runQ 2 [QCmd.enq [1]] ∧
    countEv (QEvent.queued 7) (stepQ 2 (runQ 2 [QCmd.enq [1]]) (QCmd.enq [7])).trace =
      countEv (QEvent.queued 7) (runQ 2 [QCmd.enq [1]]).trace + 1 := by
  refine ⟨(claim_C3_enqueue_per_key_idempotent 2 [QCmd.enq [1]] 1).1 (by decide), ?_⟩
  exact ((claim_C3_enqueue_per_key_idempotent 2 [QCmd.enq [1]] 7).2.2
    (by decide) (by decide)).2.1

/-!
The metadata store is a shallow embedding of the `ReviewManager` class
(current version, the one with `closedOnGitHub`, `migrateStatusFields` and
`syncAllIssuesFromGitHub`) and of `syncClosedIssues` in
`src/sync-service.ts`.

Modelling conventions:
* The persisted JSON object `metadata.issues` is an association list in
  property order; a JS object never holds two entries for one key, keys
  are the digit strings captured from artifact filenames (or
  `issueNumber.toString()`).  Updating an existing key mutates the entry
  in place, a fresh key is appended.
* ISO-8601 date strings are modelled as `Option Nat` timestamps; `none`
  models the untriaged empty-string sentinel, whose `new Date().getTime()`
  is `NaN` and therefore compares false (`dateGt`).
* Every mutating method ends in `saveMetadata()`, and `loadMetadata()`
  reads back exactly what was saved, so persistence is the identity on the
  modelled store and `loadMetadata` at the start of `scanForNewIssues` is
  a no-op.
* The artifact directory is modelled as the list of files matched by the
  `issue-*-triage.md` glob in scan order, each carrying the `(\d+)`
  filename capture (`key`), its mtime, its text content, and the model
  string the sibling debug-JSON branch would yield (`none` when the debug
  file is missing, unparseable, empty, or has a falsy `model`).
* The four content regexes are embedded as explicit matchers over
  `List Char` with JavaScript semantics: leftmost match, case-insensitive
  comparison where the `i` flag is set, `\s` as whitespace, `.` excluding
  line terminators, and multiline `$`/`^` anchored at line terminators.
  (Non-ASCII whitespace and the U+2028/U+2029 terminators are outside the
  modelled character range.)
-/

/-- JavaScript `\s` on the ASCII range. -/
def isJsWs (c : Char) : Bool :=
  c = ' ' || c = '\t' || c = '\n' || c = '\r' || c = '\x0b' || c = '\x0c'

/-- JavaScript line terminators (ASCII range), the characters excluded by
`.` and matched by multiline `^`/`$`. -/
def isNlChar (c : Char) : Bool :=
  c = '\n' || c = '\r'

/-- ASCII lower-casing, as `String.prototype.toLowerCase` acts on the
enum values involved. -/
def lowerChar (c : Char) : Char :=
  if 'A' ≤ c ∧ c ≤ 'Z' then Char.ofNat (c.toNat + 32) else c

/-- Case-insensitive literal match returning the rest of the input. -/
def matchCI : List Char → List Char → Option (List Char)
  | [], s => some s
  | _ :: _, [] => none
  | p :: ps, c :: cs => if lowerChar c = lowerChar p then matchCI ps cs else none

/-- Case-sensitive literal match returning the rest of the input. -/
def matchExact : List Char → List Char → Option (List Char)
  | [], s => some s
  | _ :: _, [] => none
  | p :: ps, c :: cs => if c = p then matchExact ps cs else none

/-- Leftmost-match scan: try the matcher at every position, in order. -/
def scanFirst {α : Type} (f : List Char → Option α) : List Char → Option α
  | [] => f []
  | c :: rest => (f (c :: rest)).orElse fun _ => scanFirst f rest

/-- Match attempt for `/SHOULD_CLOSE:\s*(Yes|No)/i` at one position; the
boolean is `capture.toLowerCase() === "yes"`, i.e. whether the `Yes`
alternative matched.  (`\s*` is maximal-munch here: both alternatives
start with a non-whitespace character, so backtracking cannot help.) -/
def scAt (s : List Char) : Option Bool :=
  match matchCI ("should_close:".toList) s with
  | none => none
  | some r =>
    let r2 := r.dropWhile isJsWs
    match matchCI ("yes".toList) r2 with
    | some _ => some true
    | none =>
      match matchCI ("no".toList) r2 with
      | some _ => some false
      | none => none

def scMatch (content : List Char) : Option Bool :=
  scanFirst scAt content

/-- Case-insensitive literal match returning the consumed original-case
characters (the regex capture). -/
def capCI (pat : List Char) (s : List Char) : Option (List Char) :=
  match matchCI pat s with
  | none => none
  | some _ => some (s.take pat.length)

/-- Match attempt for `/CONFIDENCE:\s*(High|Medium|Low)/i` at one
position; the capture keeps the original casing, exactly as the source
stores `confidenceMatch[1]`. -/
def confAt (s : List Char) : Option (List Char) :=
  match matchCI ("confidence:".toList) s with
  | none => none
  | some r =>
    let r2 := r.dropWhile isJsWs
    (capCI ("high".toList) r2).orElse fun _ =>
      (capCI ("medium".toList) r2).orElse fun _ =>
        capCI ("low".toList) r2

def confMatch (content : List Char) : Option (List Char) :=
  scanFirst confAt content

/-- The `\s*(.+)$` tail shared by the LABELS and title regexes (with the
`m` flag).  Greedy `\s*` first: if a non-whitespace character remains, the
capture is the maximal run of non-line-terminator characters from there
(the following character is necessarily a terminator or the end, so `$`
holds).  If the rest is all whitespace, backtracking shortens `\s*` until
`(.+)$` can take the last non-terminator character, if any. -/
def wsCapture (r : List Char) : Option (List Char) :=
  match r.dropWhile isJsWs with
  | [] =>
    match r.reverse.dropWhile isNlChar with
    | [] => none
    | c :: _ => some [c]
  | c :: rest => some ((c :: rest).takeWhile (fun d => !isNlChar d))

/-- Match attempt for `/LABELS:\s*(.+)$/m` at one position (the marker is
case-sensitive: no `i` flag on this regex). -/
def labelsAt (s : List Char) : Option (List Char) :=
  match matchExact ("LABELS:".toList) s with
  | none => none
  | some r => wsCapture r

def labelsMatch (content : List Char) : Option (List Char) :=
  scanFirst labelsAt content

/-- `\d+`: consume one or more ASCII digits. -/
def digitRun (s : List Char) : Option (List Char) :=
  let ds := s.takeWhile (fun c => c.isDigit)
  if ds.isEmpty then none else some (s.drop ds.length)

/-- `\s+`: consume one or more whitespace characters (maximal munch; every
following literal in the title regex starts with non-whitespace). -/
def wsRun1 (s : List Char) : Option (List Char) :=
  let ws := s.takeWhile isJsWs
  if ws.isEmpty then none else some (s.drop ws.length)

/-- Match attempt for `/^#\s+Issue\s+#\d+:\s*(.+)$/m` at a line start. -/
def titleAt (s : List Char) : Option (List Char) :=
  match matchExact ("#".toList) s with
  | none => none
  | some r1 =>
    match wsRun1 r1 with
    | none => none
    | some r2 =>
      match matchExact ("Issue".toList) r2 with
      | none => none
      | some r3 =>
        match wsRun1 r3 with
        | none => none
        | some r4 =>
          match matchExact ("#".toList) r4 with
          | none => none
          | some r5 =>
            match digitRun r5 with
            | none => none
            | some r6 =>
              match matchExact (":".toList) r6 with
              | none => none
              | some r7 => wsCapture r7

/-- Try a matcher at the position following each line terminator, in
order (the positions where multiline `^` matches, other than 0). -/
def scanLineStarts {α : Type} (f : List Char → Option α) : List Char → Option α
  | [] => none
  | c :: rest =>
    if isNlChar c then (f rest).orElse fun _ => scanLineStarts f rest
    else scanLineStarts f rest

def titleMatch (content : List Char) : Option (List Char) :=
  (titleAt content).orElse fun _ => scanLineStarts titleAt content

/-- `String.prototype.trim` on the modelled character range. -/
def jsTrim (s : List Char) : List Char :=
  ((s.dropWhile isJsWs).reverse.dropWhile isJsWs).reverse

/-- JavaScript `split(",")`. -/
def splitCommaAux : List Char → List Char → List (List Char)
  | [], acc => [acc.reverse]
  | c :: rest, acc =>
    if c = ',' then acc.reverse :: splitCommaAux rest []
    else splitCommaAux rest (c :: acc)

def splitComma (s : List Char) : List (List Char) :=
  splitCommaAux s []

/-- The labels post-processing:
`labelsStr ? labelsStr.split(",").map(trim).filter(truthy) : []` applied
to the trimmed capture. -/
def parseLabels (cap : List Char) : List String :=
  let str := jsTrim cap
  if str.isEmpty then []
  else (((splitComma str).map jsTrim).filter (fun l => !l.isEmpty)).map String.mk

/-- `read`/`unread` review state. -/
inductive ReviewStatus where
  | read
  | unread
deriving DecidableEq, Repr

/-- One record of `metadata.issues` (interface `IssueMetadata`). -/
@[ext]
structure IssueMetadata where
  issueNumber : Nat
  triageDate : Option Nat
  reviewStatus : ReviewStatus
  reviewDate : Option Nat
  tags : Option (List String)
  notes : Option String
  shouldClose : Option Bool
  closedOnGitHub : Option Bool
  title : Option String
  labels : Option (List String)
  confidence : Option String
  model : Option String
  createdAt : Option Nat
  updatedAt : Option Nat
deriving DecidableEq, Repr

/-- The persisted record map, in JS property order. -/
abbrev Store := List (String × IssueMetadata)

/-- One artifact file found by the `issue-*-triage.md` glob. -/
structure ArtifactFile where
  key : String
  mtime : Nat
  content : List Char
  debugModel : Option String
deriving DecidableEq, Repr

/-- `parseInt` on the digit string captured from the filename. -/
def parseDigits (s : String) : Nat :=
  s.toList.foldl (fun n c => n * 10 + (c.toNat - 48)) 0

/-- `issueNumber.toString()`: the canonical key of an issue number. -/
def numKey (n : Nat) : String := Nat.repr n

def lookupIssue (s : Store) (k : String) : Option IssueMetadata :=
  match s.find? (fun p => p.1 = k) with
  | some p => some p.2
  | none => none

/-- In-place mutation of the record at key `k`, if present. -/
def updateIssue (s : Store) (k : String) (g : IssueMetadata → IssueMetadata) : Store :=
  s.map (fun p => if p.1 = k then (p.1, g p.2) else p)

/-- The record created on first sight of an artifact (scan) or on
`updateTriageMetadata`: unread, no review date, only number and date. -/
def newRecord (n : Nat) (d : Option Nat) : IssueMetadata :=
  { issueNumber := n, triageDate := d, reviewStatus := ReviewStatus.unread,
    reviewDate := none, tags := none, notes := none, shouldClose := none,
    closedOnGitHub := none, title := none, labels := none, confidence := none,
    model := none, createdAt := none, updatedAt := none }

/-- `new Date(a).getTime() > new Date(b).getTime()` where `none` models a
date string whose timestamp is `NaN` (every comparison false). -/
def dateGt : Option Nat → Option Nat → Bool
  | some a, some b => b < a
  | _, _ => false

/-- `triageDate` update of the scan: bump to the file mtime only if
strictly newer. -/
def bumpDate (t : Option Nat) (m : Nat) : Option Nat :=
  if dateGt (some m) t then some m else t

/-- `if (match) { field = value }`: overwrite when the parse yielded a
value, keep otherwise. -/
def updField {α : Type} (old : Option α) (u : Option α) : Option α :=
  match u with
  | some x => some x
  | none => old

/-- Everything one scan pass extracts from one artifact file. -/
structure ArtifactYield where
  mtime : Nat
  title : Option String
  shouldClose : Option Bool
  labels : Option (List String)
  confidence : Option String
  model : Option String
deriving DecidableEq, Repr

def yieldsOf (f : ArtifactFile) : ArtifactYield :=
  { mtime := f.mtime,
    title := (titleMatch f.content).map (fun t => String.mk (jsTrim t)),
    shouldClose := scMatch f.content,
    labels := (labelsMatch f.content).map parseLabels,
    confidence := (confMatch f.content).map String.mk,
    model := f.debugModel }

/-- The `if (issue) { ... }` body of the scan loop: the sequence of
independent conditional field assignments, written field-wise. -/
def applyYield (u : ArtifactYield) (v : IssueMetadata) : IssueMetadata :=
  { v with
    triageDate := bumpDate v.triageDate u.mtime,
    title := updField v.title u.title,
    shouldClose := updField v.shouldClose u.shouldClose,
    labels := updField v.labels u.labels,
    confidence := updField v.confidence u.confidence,
    model := updField v.model u.model }

def applyContent (f : ArtifactFile) (v : IssueMetadata) : IssueMetadata :=
  applyYield (yieldsOf f) v

/-- One iteration of the `scanForNewIssues` loop: create the record if the
key is fresh (mtime as triage date, unread), then fold the parsed artifact
fields into it. -/
def scanFile (s : Store) (f : ArtifactFile) : Store :=
  let s1 :=
    if (lookupIssue s f.key).isSome then s
    else s ++ [(f.key, newRecord (parseDigits f.key) (some f.mtime))]
  updateIssue s1 f.key (applyContent f)

/-- `scanForNewIssues`: fold every glob-matched artifact file into the
store (the final `saveMetadata` persists the result). -/
def scanStore (files : List ArtifactFile) (s : Store) : Store :=
  files.foldl scanFile s

/-- `markAsRead`: rescan, then set the record (if any) to read with the
current time as review date. -/
def markAsRead (files : List ArtifactFile) (now : Nat) (n : Nat) (s : Store) : Store :=
  let s1 := scanStore files s
  match lookupIssue s1 (numKey n) with
  | some _ =>
    updateIssue s1 (numKey n)
      (fun i => { i with reviewStatus := ReviewStatus.read, reviewDate := some now })
  | none => s1

/-- `markAsUnread`: rescan, then set the record (if any) to unread and
delete its review date. -/
def markAsUnread (files : List ArtifactFile) (n : Nat) (s : Store) : Store :=
  let s1 := scanStore files s
  match lookupIssue s1 (numKey n) with
  | some _ =>
    updateIssue s1 (numKey n)
      (fun i => { i with reviewStatus := ReviewStatus.unread, reviewDate := none })
  | none => s1

/-- The per-record body of `markAllAsRead`. -/
def setRead (now : Nat) (v : IssueMetadata) : IssueMetadata :=
  { v with reviewStatus := ReviewStatus.read, reviewDate := some now }

/-- `markAllAsRead`: rescan, then set every record to read with one shared
timestamp. -/
def markAllAsRead (files : List ArtifactFile) (now : Nat) (s : Store) : Store :=
  (scanStore files s).map (fun p => (p.1, setRead now p.2))

/-- `markClosedOnGitHub`: rescan, then set the remote-closed flag of the
record (if any). -/
def markClosedOnGitHub (files : List ArtifactFile) (n : Nat) (closed : Bool) (s : Store) : Store :=
  let s1 := scanStore files s
  match lookupIssue s1 (numKey n) with
  | some _ =>
    updateIssue s1 (numKey n) (fun i => { i with closedOnGitHub := some closed })
  | none => s1

/-- `addNote` (no rescan): overwrite the note of the record, if any. -/
def addNote (n : Nat) (txt : String) (s : Store) : Store :=
  match lookupIssue s (numKey n) with
  | some _ => updateIssue s (numKey n) (fun i => { i with notes := some txt })
  | none => s

/-- JS `new Set(list)` iteration order: first occurrences, in order. -/
def dedupFirstAux (seen : List String) : List String → List String
  | [] => []
  | a :: l =>
    if a ∈ seen then dedupFirstAux seen l
    else a :: dedupFirstAux (a :: seen) l

def dedupFirst (l : List String) : List String :=
  dedupFirstAux [] l

/-- The per-record body of `addTags`:
`issue.tags = [...new Set([...(issue.tags || []), ...tags])]`. -/
def addTagsFn (ts : List String) (i : IssueMetadata) : IssueMetadata :=
  { i with tags := some (dedupFirst ((i.tags.getD []) ++ ts)) }

/-- `addTags` (no rescan). -/
def addTags (n : Nat) (ts : List String) (s : Store) : Store :=
  match lookupIssue s (numKey n) with
  | some _ => updateIssue s (numKey n) (addTagsFn ts)
  | none => s

/-- `updateTriageMetadata`: create a fresh unread record if absent, then
set the model when provided (truthy). -/
def updateTriageMetadata (now : Nat) (n : Nat) (model : Option String) (s : Store) : Store :=
  let s1 :=
    if (lookupIssue s (numKey n)).isSome then s
    else s ++ [(numKey n, newRecord n (some now))]
  match model with
  | some m => updateIssue s1 (numKey n) (fun i => { i with model := some m })
  | none => s1

/-- `getInbox("all")`: rescan, take all records, default sort by issue
number descending (`(a, b) => b.issueNumber - a.issueNumber`, stable). -/
def inboxAll (files : List ArtifactFile) (s : Store) : List IssueMetadata :=
  ((scanStore files s).map (fun p => p.2)).mergeSort
    (fun a b => b.issueNumber ≤ a.issueNumber)

/-- How `syncClosedIssues` accounts one closed issue. -/
inductive SyncAction where
  | updated
  | alreadyMarked
  | skipped
deriving DecidableEq, Repr

/-- The `syncClosedIssues` loop body for one remotely closed issue `n`
whose triage artifact exists: fetch the inbox (which rescans and
persists), find the record by issue number, and reconcile its review and
remote-closed state. -/
def syncIssueStep (files : List ArtifactFile) (now : Nat) (n : Nat) (s : Store) :
    Store × SyncAction :=
  let metadata := inboxAll files s
  let s1 := scanStore files s
  match metadata.find? (fun m => m.issueNumber == n) with
  | some m =>
    if m.reviewStatus = ReviewStatus.unread then
      (markClosedOnGitHub files n true (markAsRead files now n s1), SyncAction.updated)
    else if m.closedOnGitHub ≠ some true then
      (markClosedOnGitHub files n true s1, SyncAction.updated)
    else (s1, SyncAction.alreadyMarked)
  | none => (s1, SyncAction.skipped)

/-- The store mutations considered in the invariant claims, each carrying
the filesystem/clock environment it runs against. -/
inductive StoreOp where
  | scan (files : List ArtifactFile)
  | mRead (files : List ArtifactFile) (now n : Nat)
  | mUnread (files : List ArtifactFile) (n : Nat)
  | mAllRead (files : List ArtifactFile) (now : Nat)
  | mClosed (files : List ArtifactFile) (n : Nat) (closed : Bool)
  | note (n : Nat) (txt : String)
  | tags (n : Nat) (ts : List String)
  | updTriage (now n : Nat) (model : Option String)
  | syncStep (files : List ArtifactFile) (now n : Nat)
deriving Repr

def applyOp (s : Store) : StoreOp → Store
  | StoreOp.scan files => scanStore files s
  | StoreOp.mRead files now n => markAsRead files now n s
  | StoreOp.mUnread files n => markAsUnread files n s
  | StoreOp.mAllRead files now => markAllAsRead files now s
  | StoreOp.mClosed files n closed => markClosedOnGitHub files n closed s
  | StoreOp.note n txt => addNote n txt s
  | StoreOp.tags n ts => addTags n ts s
  | StoreOp.updTriage now n model => updateTriageMetadata now n model s
  | StoreOp.syncStep files now n => (syncIssueStep files now n s).1

def runOps (ops : List StoreOp) (s : Store) : Store :=
  ops.foldl applyOp s

def keysOf (s : Store) : List String := s.map (fun p => p.1)

theorem lookupIssue_cons (p : String × IssueMetadata) (s : Store) (k : String) :
    lookupIssue (p :: s) k = if p.1 = k then some p.2 else lookupIssue s k := by
  by_cases h : p.1 = k <;> simp [lookupIssue, List.find?_cons, h]

theorem lookupIssue_updateIssue (s : Store) (k : String)
    (g : IssueMetadata → IssueMetadata) (k2 : String) :
    lookupIssue (updateIssue s k g) k2 =
      if k2 = k then (lookupIssue s k2).map g else lookupIssue s k2 := by
  induction s with
  | nil =>
    by_cases h : k2 = k <;> simp [updateIssue, lookupIssue, h]
  | cons p rest ih =>
    have hu : updateIssue (p :: rest) k g =
        (if p.1 = k then (p.1, g p.2) else p) :: updateIssue rest k g := by
      simp [updateIssue]
    simp only [hu, lookupIssue_cons]
    by_cases h1 : p.1 = k
    · by_cases h2 : p.1 = k2
      · have hk : k2 = k := by rw [← h1, ← h2]
        simp [h1, h2, hk]
      · have hk : ¬k2 = k := fun hh => h2 (h1.trans hh.symm)
        have hk2 : ¬k = k2 := fun hh => h2 (h1.trans hh)
        simp [h1, h2, hk, hk2, ih]
    · by_cases h2 : p.1 = k2
      · have hk : ¬k2 = k := fun hh => h1 (h2.trans hh)
        simp [h1, h2, hk]
      · simp [h1, h2, ih]

theorem lookupIssue_append (s t : Store) (k : String) :
    lookupIssue (s ++ t) k =
      match lookupIssue s k with
      | some v => some v
      | none => lookupIssue t k := by
  induction s with
  | nil => simp [lookupIssue]
  | cons p rest ih =>
    by_cases h : p.1 = k <;> simp [lookupIssue_cons, h, ih]

theorem lookupIssue_isSome_iff (s : Store) (k : String) :
    (lookupIssue s k).isSome = true ↔ k ∈ keysOf s := by
  induction s with
  | nil => simp [lookupIssue, keysOf]
  | cons p rest ih =>
    by_cases h : p.1 = k <;> simp [lookupIssue_cons, h, keysOf, ih] <;>
      simp [keysOf] at ih ⊢ <;> tauto

theorem scanFile_lookup_same (s : Store) (f : ArtifactFile) :
    lookupIssue (scanFile s f) f.key =
      some (applyContent f
        ((lookupIssue s f.key).getD (newRecord (parseDigits f.key) (some f.mtime)))) := by
  unfold scanFile
  cases hl : lookupIssue s f.key with
  | some v =>
    simp only [hl, Option.isSome_some, if_true]
    rw [lookupIssue_updateIssue, if_pos rfl, hl]
    rfl
  | none =>
    simp only [hl, Option.isSome_none, Bool.false_eq_true, if_false]
    rw [lookupIssue_updateIssue, if_pos rfl, lookupIssue_append, hl]
    simp [lookupIssue_cons, lookupIssue]

theorem scanFile_lookup_other (s : Store) (f : ArtifactFile) (k : String)
    (h : k ≠ f.key) :
    lookupIssue (scanFile s f) k = lookupIssue s k := by
  unfold scanFile
  split
  · rw [lookupIssue_updateIssue, if_neg h]
  · rw [lookupIssue_updateIssue, if_neg h, lookupIssue_append]
    cases hl : lookupIssue s k with
    | some v => rfl
    | none => simp [lookupIssue_cons, Ne.symm h, lookupIssue]

/-- Pointwise view of a scan: the record at key `k` after the scan is the
fold of the key-`k` files over the previous record (or over the freshly
created record, from the first such file on). -/
def scanChainO (files : List ArtifactFile) (k : String) (o : Option IssueMetadata) :
    Option IssueMetadata :=
  files.foldl
    (fun o f =>
      if f.key = k then
        some (applyContent f (o.getD (newRecord (parseDigits f.key) (some f.mtime))))
      else o) o

theorem lookupIssue_scanStore (files : List ArtifactFile) :
    ∀ (s : Store) (k : String),
      lookupIssue (scanStore files s) k = scanChainO files k (lookupIssue s k) := by
  induction files with
  | nil => intro s k; rfl
  | cons f fs ih =>
    intro s k
    show lookupIssue (scanStore fs (scanFile s f)) k = _
    rw [ih]
    show _ = scanChainO fs k
      (if f.key = k then
        some (applyContent f
          ((lookupIssue s k).getD (newRecord (parseDigits f.key) (some f.mtime))))
      else lookupIssue s k)
    by_cases h : f.key = k
    · subst h
      rw [if_pos rfl, scanFile_lookup_same]
    · rw [if_neg h, scanFile_lookup_other s f k (Ne.symm h)]

theorem applyContent_closedOnGitHub (f : ArtifactFile) (v : IssueMetadata) :
    (applyContent f v).closedOnGitHub = v.closedOnGitHub := rfl

theorem applyContent_reviewStatus (f : ArtifactFile) (v : IssueMetadata) :
    (applyContent f v).reviewStatus = v.reviewStatus := rfl

theorem applyContent_reviewDate (f : ArtifactFile) (v : IssueMetadata) :
    (applyContent f v).reviewDate = v.reviewDate := rfl

theorem applyContent_notes (f : ArtifactFile) (v : IssueMetadata) :
    (applyContent f v).notes = v.notes := rfl

theorem applyContent_tags (f : ArtifactFile) (v : IssueMetadata) :
    (applyContent f v).tags = v.tags := rfl

/-- The scan chain never touches the review fields, the user annotation
fields, or the remote-closed flag: a pre-existing record keeps them, a
record created by the scan has them at their creation defaults. -/
theorem scanChainO_frame (files : List ArtifactFile) :
    ∀ (k : String) (o : Option IssueMetadata) (r : IssueMetadata),
      scanChainO files k o = some r →
      (match o with
      | some v => r.closedOnGitHub = v.closedOnGitHub ∧ r.reviewStatus = v.reviewStatus ∧
          r.reviewDate = v.reviewDate ∧ r.notes = v.notes ∧ r.tags = v.tags
      | none => r.closedOnGitHub = none ∧ r.reviewStatus = ReviewStatus.unread ∧
          r.reviewDate = none ∧ r.notes = none ∧ r.tags = none) := by
  induction files with
  | nil =>
    intro k o r hr
    cases o with
    | some v =>
      have : v = r := by simpa [scanChainO] using hr
      subst this
      exact ⟨rfl, rfl, rfl, rfl, rfl⟩
    | none => simp [scanChainO] at hr
  | cons f fs ih =>
    intro k o r hr
    have hstep : scanChainO (f :: fs) k o =
        scanChainO fs k
          (if f.key = k then
            some (applyContent f (o.getD (newRecord (parseDigits f.key) (some f.mtime))))
          else o) := rfl
    rw [hstep] at hr
    by_cases h : f.key = k
    · rw [if_pos h] at hr
      have hw := ih k _ r hr
      simp only at hw
      cases o with
      | some v =>
        simpa [applyContent_closedOnGitHub, applyContent_reviewStatus,
          applyContent_reviewDate, applyContent_notes, applyContent_tags,
          Option.getD] using hw
      | none =>
        simpa [applyContent_closedOnGitHub, applyContent_reviewStatus,
          applyContent_reviewDate, applyContent_notes, applyContent_tags,
          Option.getD, newRecord] using hw
    · rw [if_neg h] at hr
      exact ih k o r hr

theorem scanChainO_isSome (files : List ArtifactFile) :
    ∀ (k : String) (o : Option IssueMetadata) (v : IssueMetadata), o = some v →
      ∃ r, scanChainO files k o = some r := by
  induction files with
  | nil => intro k o v h; exact ⟨v, by simpa [scanChainO] using h⟩
  | cons f fs ih =>
    intro k o v h
    have hstep : scanChainO (f :: fs) k o =
        scanChainO fs k
          (if f.key = k then
            some (applyContent f (o.getD (newRecord (parseDigits f.key) (some f.mtime))))
          else o) := rfl
    rw [hstep]
    by_cases hk : f.key = k
    · rw [if_pos hk]
      exact ih k _ _ rfl
    · rw [if_neg hk]
      exact ih k o v h

/-- C7: a filesystem scan never alters the remote-closed flag.  Every
record existing before `scanForNewIssues` keeps its `closedOnGitHub`
value, and a record the scan creates has the flag absent; the flag is
written only by `markClosedOnGitHub`, `migrateStatusFields` and
`syncAllIssuesFromGitHub`, each of which queried the remote tracker. -/
theorem claim_C7_scan_never_alters_closed (files : List ArtifactFile) (s : Store)
    (k : String) :
    (∀ v, lookupIssue s k = some v →
      ∃ r, lookupIssue (scanStore files s) k = some r ∧
        r.closedOnGitHub = v.closedOnGitHub) ∧
    (lookupIssue s k = none →
      ∀ r, lookupIssue (scanStore files s) k = some r → r.closedOnGitHub = none) := by
  constructor
  · intro v hv
    rw [lookupIssue_scanStore, hv]
    obtain ⟨r, hr⟩ := scanChainO_isSome files k (some v) v rfl
    refine ⟨r, hr, ?_⟩
    have := scanChainO_frame files k (some v) r hr
    exact this.1
  · intro hnone r hr
    rw [lookupIssue_scanStore, hnone] at hr
    have := scanChainO_frame files k none r hr
    exact this.1

def c7FixtureFile : ArtifactFile :=
  { key := "5", mtime := 3, content := ("CONFIDENCE: High".toList), debugModel := none }

def c7FixtureRec : IssueMetadata :=
  { newRecord 5 (some 1) with closedOnGitHub := some true }

theorem claim_C7_witness :
    lookupIssue [("5", c7FixtureRec)] "5" = some c7FixtureRec ∧
    (∃ r, lookupIssue (scanStore [c7FixtureFile] [("5", c7FixtureRec)]) "5" = some r ∧
      r.closedOnGitHub = c7FixtureRec.closedOnGitHub) := by
  refine ⟨by rfl, ?_⟩
  exact (claim_C7_scan_never_alters_closed [c7FixtureFile] [("5", c7FixtureRec)] "5").1
    c7FixtureRec (by rfl)

/-- The per-record invariant claimed by C6: the review date is present
exactly when the record is read. -/
def rdOk (r : IssueMetadata) : Prop :=
  r.reviewDate.isSome = true ↔ r.reviewStatus = ReviewStatus.read

/-- The store-wide C6 invariant. -/
def rdInv (s : Store) : Prop :=
  ∀ k r, lookupIssue s k = some r → rdOk r

theorem rdOk_newRecord (n : Nat) (d : Option Nat) : rdOk (newRecord n d) := by
  simp [rdOk, newRecord]

theorem rdOk_applyContent (f : ArtifactFile) (v : IssueMetadata) (h : rdOk v) :
    rdOk (applyContent f v) := h

theorem rdOk_scanChainO (files : List ArtifactFile) :
    ∀ (k : String) (o : Option IssueMetadata) (r : IssueMetadata),
      (∀ v, o = some v → rdOk v) → scanChainO files k o = some r → rdOk r := by
  induction files with
  | nil =>
    intro k o r ho hr
    exact ho r (by simpa [scanChainO] using hr)
  | cons f fs ih =>
    intro k o r ho hr
    have hstep : scanChainO (f :: fs) k o =
        scanChainO fs k
          (if f.key = k then
            some (applyContent f (o.getD (newRecord (parseDigits f.key) (some f.mtime))))
          else o) := rfl
    rw [hstep] at hr
    by_cases h : f.key = k
    · rw [if_pos h] at hr
      refine ih k _ r ?_ hr
      rintro v hv
      rw [Option.some_inj] at hv
      subst hv
      apply rdOk_applyContent
      cases o with
      | some w => exact ho w rfl
      | none => exact rdOk_newRecord _ _
    · rw [if_neg h] at hr
      exact ih k o r ho hr

theorem rdInv_scanStore (files : List ArtifactFile) (s : Store) (h : rdInv s) :
    rdInv (scanStore files s) := by
  intro k r hr
  rw [lookupIssue_scanStore] at hr
  exact rdOk_scanChainO files k (lookupIssue s k) r (fun v hv => h k v hv) hr

theorem rdInv_updateIssue (s : Store) (k : String) (g : IssueMetadata → IssueMetadata)
    (h : rdInv s) (hg : ∀ v, rdOk v → rdOk (g v)) : rdInv (updateIssue s k g) := by
  intro k2 r hr
  rw [lookupIssue_updateIssue] at hr
  by_cases hk : k2 = k
  · rw [if_pos hk] at hr
    cases hl : lookupIssue s k2 with
    | some v =>
      rw [hl] at hr
      have hgr : g v = r := by simpa using hr
      subst hgr
      exact hg v (h k2 v hl)
    | none => rw [hl] at hr; simp at hr
  · rw [if_neg hk] at hr
    exact h k2 r hr

theorem lookupIssue_map_values (s : Store) (g : IssueMetadata → IssueMetadata)
    (k : String) :
    lookupIssue (s.map (fun p => (p.1, g p.2))) k = (lookupIssue s k).map g := by
  induction s with
  | nil => simp [lookupIssue]
  | cons p rest ih =>
    by_cases h : p.1 = k <;> simp [lookupIssue_cons, h, ih]

theorem rdInv_markAsRead (files : List ArtifactFile) (now n : Nat) (s : Store)
    (h : rdInv s) : rdInv (markAsRead files now n s) := by
  simp only [markAsRead]
  split
  · exact rdInv_updateIssue _ _ _ (rdInv_scanStore files s h)
      (fun v _ => by simp [rdOk])
  · exact rdInv_scanStore files s h

theorem rdInv_markAsUnread (files : List ArtifactFile) (n : Nat) (s : Store)
    (h : rdInv s) : rdInv (markAsUnread files n s) := by
  simp only [markAsUnread]
  split
  · exact rdInv_updateIssue _ _ _ (rdInv_scanStore files s h)
      (fun v _ => by simp [rdOk])
  · exact rdInv_scanStore files s h

theorem rdInv_markAllAsRead (files : List ArtifactFile) (now : Nat) (s : Store)
    (h : rdInv s) : rdInv (markAllAsRead files now s) := by
  intro k r hr
  unfold markAllAsRead at hr
  rw [lookupIssue_map_values] at hr
  cases hl : lookupIssue (scanStore files s) k with
  | some v =>
    rw [hl] at hr
    have hgr : setRead now v = r := by simpa using hr
    subst hgr
    simp [rdOk, setRead]
  | none => rw [hl] at hr; simp at hr

theorem rdInv_markClosedOnGitHub (files : List ArtifactFile) (n : Nat) (closed : Bool)
    (s : Store) (h : rdInv s) : rdInv (markClosedOnGitHub files n closed s) := by
  simp only [markClosedOnGitHub]
  split
  · exact rdInv_updateIssue _ _ _ (rdInv_scanStore files s h)
      (fun v hv => by simpa [rdOk] using hv)
  · exact rdInv_scanStore files s h

theorem rdInv_addNote (n : Nat) (txt : String) (s : Store) (h : rdInv s) :
    rdInv (addNote n txt s) := by
  simp only [addNote]
  split
  · exact rdInv_updateIssue _ _ _ h (fun v hv => by simpa [rdOk] using hv)
  · exact h

theorem rdInv_addTags (n : Nat) (ts : List String) (s : Store) (h : rdInv s) :
    rdInv (addTags n ts s) := by
  simp only [addTags]
  split
  · exact rdInv_updateIssue _ _ _ h (fun v hv => by simpa [rdOk, addTagsFn] using hv)
  · exact h

theorem rdInv_append_new (s : Store) (k : String) (r : IssueMetadata)
    (h : rdInv s) (hr : rdOk r) : rdInv (s ++ [(k, r)]) := by
  intro k2 v hv
  rw [lookupIssue_append] at hv
  cases hl : lookupIssue s k2 with
  | some w =>
    rw [hl] at hv
    have hwv : w = v := Option.some_inj.mp hv
    subst hwv
    exact h k2 w hl
  | none =>
    rw [hl] at hv
    have hv2 : lookupIssue [(k, r)] k2 = some v := hv
    rw [lookupIssue_cons] at hv2
    by_cases hk : k = k2
    · rw [if_pos hk] at hv2
      have : r = v := Option.some_inj.mp hv2
      subst this
      exact hr
    · rw [if_neg hk] at hv2
      simp [lookupIssue] at hv2

theorem rdInv_updateTriageMetadata (now n : Nat) (model : Option String) (s : Store)
    (h : rdInv s) : rdInv (updateTriageMetadata now n model s) := by
  have h1 : rdInv (if (lookupIssue s (numKey n)).isSome = true then s
      else s ++ [(numKey n, newRecord n (some now))]) := by
    split
    · exact h
    · exact rdInv_append_new s (numKey n) (newRecord n (some now)) h (rdOk_newRecord _ _)
  simp only [updateTriageMetadata]
  split
  · exact rdInv_updateIssue _ _ _ h1 (fun v hv => by simpa [rdOk] using hv)
  · exact h1

theorem rdInv_syncIssueStep (files : List ArtifactFile) (now n : Nat) (s : Store)
    (h : rdInv s) : rdInv (syncIssueStep files now n s).1 := by
  simp only [syncIssueStep]
  split
  · split
    · exact rdInv_markClosedOnGitHub files n true _
        (rdInv_markAsRead files now n _ (rdInv_scanStore files s h))
    · split
      · exact rdInv_markClosedOnGitHub files n true _ (rdInv_scanStore files s h)
      · exact rdInv_scanStore files s h
  · exact rdInv_scanStore files s h

theorem rdInv_applyOp (s : Store) (op : StoreOp) (h : rdInv s) :
    rdInv (applyOp s op) := by
  cases op with
  | scan files => exact rdInv_scanStore files s h
  | mRead files now n => exact rdInv_markAsRead files now n s h
  | mUnread files n => exact rdInv_markAsUnread files n s h
  | mAllRead files now => exact rdInv_markAllAsRead files now s h
  | mClosed files n closed => exact rdInv_markClosedOnGitHub files n closed s h
  | note n txt => exact rdInv_addNote n txt s h
  | tags n ts => exact rdInv_addTags n ts s h
  | updTriage now n model => exact rdInv_updateTriageMetadata now n model s h
  | syncStep files now n => exact rdInv_syncIssueStep files now n s h

theorem rdInv_runOps (ops : List StoreOp) :
    ∀ s : Store, rdInv s → rdInv (runOps ops s) := by
  induction ops with
  | nil => intro s h; exact h
  | cons op rest ih =>
    intro s h
    exact ih _ (rdInv_applyOp s op h)

/-- C6: starting from the empty store, after any sequence of store
operations every record has `reviewDate` present iff its `reviewStatus`
is `read`; in particular `markAsRead` sets status `read` together with the
review date, and `markAsUnread` sets status `unread` and deletes it. -/
theorem claim_C6_reviewdate_iff_read :
    (∀ (ops : List StoreOp) (k : String) (r : IssueMetadata),
      lookupIssue (runOps ops []) k = some r →
      (r.reviewDate.isSome = true ↔ r.reviewStatus = ReviewStatus.read)) ∧
    (∀ (files : List ArtifactFile) (now n : Nat) (s : Store),
      (lookupIssue (scanStore files s) (numKey n)).isSome = true →
      ∃ r, lookupIssue (markAsRead files now n s) (numKey n) = some r ∧
        r.reviewStatus = ReviewStatus.read ∧ r.reviewDate = some now) ∧
    (∀ (files : List ArtifactFile) (n : Nat) (s : Store),
      (lookupIssue (scanStore files s) (numKey n)).isSome = true →
      ∃ r, lookupIssue (markAsUnread files n s) (numKey n) = some r ∧
        r.reviewStatus = ReviewStatus.unread ∧ r.reviewDate = none) := by
  refine ⟨?_, ?_, ?_⟩
  · intro ops k r hr
    have hinv : rdInv (runOps ops []) :=
      rdInv_runOps ops [] (by intro k r hr; simp [lookupIssue] at hr)
    exact hinv k r hr
  · intro files now n s hsome
    obtain ⟨v, hv⟩ := Option.isSome_iff_exists.mp hsome
    simp only [markAsRead, hv]
    rw [lookupIssue_updateIssue, if_pos rfl, hv]
    exact ⟨_, rfl, rfl, rfl⟩
  · intro files n s hsome
    obtain ⟨v, hv⟩ := Option.isSome_iff_exists.mp hsome
    simp only [markAsUnread, hv]
    rw [lookupIssue_updateIssue, if_pos rfl, hv]
    exact ⟨_, rfl, rfl, rfl⟩

theorem claim_C6_witness :
    (∃ r, lookupIssue (markAsRead [] 9 7 [(numKey 7, newRecord 7 (some 5))]) (numKey 7)
        = some r ∧ r.reviewStatus = ReviewStatus.read ∧ r.reviewDate = some 9) ∧
    (∀ r, lookupIssue (runOps [StoreOp.updTriage 5 7 none] []) "7" = some r →
      (r.reviewDate.isSome = true ↔ r.reviewStatus = ReviewStatus.read)) := by
  constructor
  · exact claim_C6_reviewdate_iff_read.2.1 [] 9 7 [(numKey 7, newRecord 7 (some 5))]
      (by decide)
  · intro r hr
    exact claim_C6_reviewdate_iff_read.1 [StoreOp.updTriage 5 7 none] "7" r hr

/-- The effect of one scan pass on the record at key `k`, applied to a
record already present at creation time. -/
def chainApply (files : List ArtifactFile) (k : String) (v : IssueMetadata) :
    IssueMetadata :=
  files.foldl (fun v f => if f.key = k then applyContent f v else v) v

theorem chainApply_cons (f : ArtifactFile) (fs : List ArtifactFile) (k : String)
    (v : IssueMetadata) :
    chainApply (f :: fs) k v =
      chainApply fs k (if f.key = k then applyContent f v else v) := rfl

theorem chainApply_append (l1 l2 : List ArtifactFile) (k : String) (v : IssueMetadata) :
    chainApply (l1 ++ l2) k v = chainApply l2 k (chainApply l1 k v) := by
  simp [chainApply, List.foldl_append]

theorem chainApply_no_key (l : List ArtifactFile) (k : String) (v : IssueMetadata)
    (h : ∀ g ∈ l, g.key ≠ k) : chainApply l k v = v := by
  induction l with
  | nil => rfl
  | cons g gs ih =>
    rw [chainApply_cons, if_neg (h g (List.mem_cons_self g gs))]
    exact ih fun g2 hg2 => h g2 (List.mem_cons_of_mem g hg2)

theorem keysOf_updateIssue (s : Store) (k : String) (g : IssueMetadata → IssueMetadata) :
    keysOf (updateIssue s k g) = keysOf s := by
  unfold keysOf updateIssue
  rw [List.map_map]
  apply List.map_congr_left
  intro p _
  by_cases h : p.1 = k <;> simp [h]

theorem updateIssue_not_mem (s : Store) (k : String) (g : IssueMetadata → IssueMetadata)
    (h : k ∉ keysOf s) : updateIssue s k g = s := by
  unfold updateIssue
  have hid : ∀ p ∈ s, (if p.1 = k then (p.1, g p.2) else p) = p := by
    intro p hp
    rw [if_neg]
    intro he
    exact h (he ▸ List.mem_map_of_mem (fun q => q.1) hp)
  calc s.map (fun p => if p.1 = k then (p.1, g p.2) else p)
      = s.map id := List.map_congr_left hid
    _ = s := List.map_id s

theorem lookupIssue_none_iff (s : Store) (k : String) :
    lookupIssue s k = none ↔ k ∉ keysOf s := by
  rw [← lookupIssue_isSome_iff]
  cases lookupIssue s k <;> simp

theorem scanFile_of_mem (s : Store) (f : ArtifactFile) (h : f.key ∈ keysOf s) :
    scanFile s f = updateIssue s f.key (applyContent f) := by
  have hs : (lookupIssue s f.key).isSome = true := (lookupIssue_isSome_iff s f.key).mpr h
  simp [scanFile, hs]

theorem scanFile_of_not_mem (s : Store) (f : ArtifactFile) (h : f.key ∉ keysOf s) :
    scanFile s f =
      s ++ [(f.key, applyContent f (newRecord (parseDigits f.key) (some f.mtime)))] := by
  have hs : lookupIssue s f.key = none := (lookupIssue_none_iff s f.key).mpr h
  simp only [scanFile, hs, Option.isSome_none, Bool.false_eq_true, if_false]
  unfold updateIssue
  rw [List.map_append]
  congr 1
  · have hid : ∀ p ∈ s, (if p.1 = f.key then (p.1, applyContent f p.2) else p) = p := by
      intro p hp
      rw [if_neg]
      intro he
      exact h (he ▸ List.mem_map_of_mem (fun q => q.1) hp)
    calc s.map (fun p => if p.1 = f.key then (p.1, applyContent f p.2) else p)
        = s.map id := List.map_congr_left hid
      _ = s := List.map_id s
  · simp

/-- The tail of records a scan appends: one per file whose key was not yet
in the store (nor created by an earlier file of the same pass), each built
from that file and then folded with the remaining same-key files. -/
def newPartStore (files : List ArtifactFile) (seen : List String) : Store :=
  match files with
  | [] => []
  | f :: fs =>
    if f.key ∈ seen then newPartStore fs seen
    else
      (f.key, chainApply fs f.key
        (applyContent f (newRecord (parseDigits f.key) (some f.mtime)))) ::
        newPartStore fs (f.key :: seen)

theorem newPartStore_congr (files : List ArtifactFile) :
    ∀ seen1 seen2 : List String, (∀ x, x ∈ seen1 ↔ x ∈ seen2) →
      newPartStore files seen1 = newPartStore files seen2 := by
  induction files with
  | nil => intro seen1 seen2 _; rfl
  | cons f fs ih =>
    intro seen1 seen2 h
    simp only [newPartStore]
    by_cases hm : f.key ∈ seen1
    · rw [if_pos hm, if_pos ((h f.key).mp hm)]
      exact ih seen1 seen2 h
    · rw [if_neg hm, if_neg (fun hh => hm ((h f.key).mpr hh))]
      congr 1
      apply ih
      intro x
      simp [h x]

theorem newPartStore_nil (files : List ArtifactFile) :
    ∀ seen : List String, (∀ f ∈ files, f.key ∈ seen) → newPartStore files seen = [] := by
  induction files with
  | nil => intro seen _; rfl
  | cons f fs ih =>
    intro seen h
    simp only [newPartStore, h f (List.mem_cons_self f fs), if_true]
    exact ih seen fun g hg => h g (List.mem_cons_of_mem f hg)

/-- Structural description of a scan: existing entries are mapped in place
by the per-key chain; entries for fresh keys are appended in
first-occurrence order. -/
theorem scanStore_decomp (files : List ArtifactFile) :
    ∀ s : Store,
      scanStore files s =
        s.map (fun p => (p.1, chainApply files p.1 p.2)) ++
          newPartStore files (keysOf s) := by
  induction files with
  | nil =>
    intro s
    show s = s.map (fun p => (p.1, chainApply [] p.1 p.2)) ++ newPartStore [] (keysOf s)
    simp [chainApply, newPartStore]
  | cons f fs ih =>
    intro s
    show scanStore fs (scanFile s f) = _
    by_cases h : f.key ∈ keysOf s
    · rw [scanFile_of_mem s f h, ih, keysOf_updateIssue]
      congr 1
      · unfold updateIssue
        rw [List.map_map]
        apply List.map_congr_left
        intro p _
        by_cases hk : p.1 = f.key
        · simp [Function.comp, hk, chainApply_cons]
        · have hk2 : ¬f.key = p.1 := fun hh => hk hh.symm
          simp [Function.comp, hk, hk2, chainApply_cons]
      · simp [newPartStore, h]
    · rw [scanFile_of_not_mem s f h, ih]
      have hkeys :
          keysOf (s ++ [(f.key, applyContent f (newRecord (parseDigits f.key) (some f.mtime)))]) =
            keysOf s ++ [f.key] := by
        simp [keysOf]
      rw [hkeys, List.map_append]
      have hnp : newPartStore (f :: fs) (keysOf s) =
          (f.key, chainApply fs f.key
            (applyContent f (newRecord (parseDigits f.key) (some f.mtime)))) ::
            newPartStore fs (f.key :: keysOf s) := by
        simp [newPartStore, h]
      rw [hnp]
      rw [newPartStore_congr fs (keysOf s ++ [f.key]) (f.key :: keysOf s)
        (by intro x; simp [or_comm])]
      have hmaps : s.map (fun p => (p.1, chainApply fs p.1 p.2)) =
          s.map (fun p => (p.1, chainApply (f :: fs) p.1 p.2)) := by
        apply List.map_congr_left
        intro p hp
        have hk : ¬f.key = p.1 := by
          intro hh
          exact h (hh ▸ List.mem_map_of_mem (fun q => q.1) hp)
        simp [chainApply_cons, hk]
      rw [hmaps]
      simp

theorem keysOf_scanFile_mono (s : Store) (f : ArtifactFile) (x : String)
    (h : x ∈ keysOf s) : x ∈ keysOf (scanFile s f) := by
  by_cases hm : f.key ∈ keysOf s
  · rw [scanFile_of_mem s f hm, keysOf_updateIssue]; exact h
  · rw [scanFile_of_not_mem s f hm]
    simp only [keysOf, List.map_append, List.mem_append]
    exact Or.inl h

theorem keysOf_scanFile_self (s : Store) (f : ArtifactFile) :
    f.key ∈ keysOf (scanFile s f) := by
  by_cases hm : f.key ∈ keysOf s
  · rw [scanFile_of_mem s f hm, keysOf_updateIssue]; exact hm
  · rw [scanFile_of_not_mem s f hm]
    simp [keysOf]

theorem keysOf_scanStore_mono (files : List ArtifactFile) :
    ∀ (s : Store) (x : String), x ∈ keysOf s → x ∈ keysOf (scanStore files s) := by
  induction files with
  | nil => intro s x h; exact h
  | cons f fs ih =>
    intro s x h
    exact ih (scanFile s f) x (keysOf_scanFile_mono s f x h)

theorem scanStore_sees_keys (files : List ArtifactFile) :
    ∀ (s : Store) (f : ArtifactFile), f ∈ files → f.key ∈ keysOf (scanStore files s) := by
  induction files with
  | nil => intro s f h; cases h
  | cons g gs ih =>
    intro s f hf
    rcases List.mem_cons.mp hf with rfl | hf2
    · exact keysOf_scanStore_mono gs (scanFile s f) f.key (keysOf_scanFile_self s f)
    · exact ih (scanFile s g) f hf2

/-- Folding a list of artifact yields into a record. -/
def updFoldY (us : List ArtifactYield) (v : IssueMetadata) : IssueMetadata :=
  us.foldl (fun v u => applyYield u v) v

theorem chainApply_eq_updFoldY (files : List ArtifactFile) :
    ∀ (k : String) (v : IssueMetadata),
      chainApply files k v =
        updFoldY ((files.filter (fun f => f.key = k)).map yieldsOf) v := by
  induction files with
  | nil => intro k v; rfl
  | cons f fs ih =>
    intro k v
    rw [chainApply_cons]
    by_cases h : f.key = k
    · rw [if_pos h]
      have hf : (f :: fs).filter (fun f => decide (f.key = k)) =
          f :: fs.filter (fun f => decide (f.key = k)) := by
        simp [List.filter_cons, h]
      rw [hf]
      exact ih k (applyContent f v)
    · rw [if_neg h]
      have hf : (f :: fs).filter (fun f => decide (f.key = k)) =
          fs.filter (fun f => decide (f.key = k)) := by
        simp [List.filter_cons, h]
      rw [hf]
      exact ih k v

theorem updFoldY_issueNumber (us : List ArtifactYield) :
    ∀ v, (updFoldY us v).issueNumber = v.issueNumber := by
  induction us with
  | nil => intro v; rfl
  | cons u us ih => intro v; exact ih (applyYield u v)

theorem updFoldY_reviewStatus (us : List ArtifactYield) :
    ∀ v, (updFoldY us v).reviewStatus = v.reviewStatus := by
  induction us with
  | nil => intro v; rfl
  | cons u us ih => intro v; exact ih (applyYield u v)

theorem updFoldY_reviewDate (us : List ArtifactYield) :
    ∀ v, (updFoldY us v).reviewDate = v.reviewDate := by
  induction us with
  | nil => intro v; rfl
  | cons u us ih => intro v; exact ih (applyYield u v)

theorem updFoldY_tags (us : List ArtifactYield) :
    ∀ v, (updFoldY us v).tags = v.tags := by
  induction us with
  | nil => intro v; rfl
  | cons u us ih => intro v; exact ih (applyYield u v)

theorem updFoldY_notes (us : List ArtifactYield) :
    ∀ v, (updFoldY us v).notes = v.notes := by
  induction us with
  | nil => intro v; rfl
  | cons u us ih => intro v; exact ih (applyYield u v)

theorem updFoldY_closed (us : List ArtifactYield) :
    ∀ v, (updFoldY us v).closedOnGitHub = v.closedOnGitHub := by
  induction us with
  | nil => intro v; rfl
  | cons u us ih => intro v; exact ih (applyYield u v)

theorem updFoldY_createdAt (us : List ArtifactYield) :
    ∀ v, (updFoldY us v).createdAt = v.createdAt := by
  induction us with
  | nil => intro v; rfl
  | cons u us ih => intro v; exact ih (applyYield u v)

theorem updFoldY_updatedAt (us : List ArtifactYield) :
    ∀ v, (updFoldY us v).updatedAt = v.updatedAt := by
  induction us with
  | nil => intro v; rfl
  | cons u us ih => intro v; exact ih (applyYield u v)

theorem updFoldY_triageDate (us : List ArtifactYield) :
    ∀ v, (updFoldY us v).triageDate =
      (us.map (fun u => u.mtime)).foldl bumpDate v.triageDate := by
  induction us with
  | nil => intro v; rfl
  | cons u us ih => intro v; exact ih (applyYield u v)

theorem updFoldY_title (us : List ArtifactYield) :
    ∀ v, (updFoldY us v).title =
      (us.map (fun u => u.title)).foldl updField v.title := by
  induction us with
  | nil => intro v; rfl
  | cons u us ih => intro v; exact ih (applyYield u v)

theorem updFoldY_shouldClose (us : List ArtifactYield) :
    ∀ v, (updFoldY us v).shouldClose =
      (us.map (fun u => u.shouldClose)).foldl updField v.shouldClose := by
  induction us with
  | nil => intro v; rfl
  | cons u us ih => intro v; exact ih (applyYield u v)

theorem updFoldY_labels (us : List ArtifactYield) :
    ∀ v, (updFoldY us v).labels =
      (us.map (fun u => u.labels)).foldl updField v.labels := by
  induction us with
  | nil => intro v; rfl
  | cons u us ih => intro v; exact ih (applyYield u v)

theorem updFoldY_confidence (us : List ArtifactYield) :
    ∀ v, (updFoldY us v).confidence =
      (us.map (fun u => u.confidence)).foldl updField v.confidence := by
  induction us with
  | nil => intro v; rfl
  | cons u us ih => intro v; exact ih (applyYield u v)

theorem updFoldY_model (us : List ArtifactYield) :
    ∀ v, (updFoldY us v).model =
      (us.map (fun u => u.model)).foldl updField v.model := by
  induction us with
  | nil => intro v; rfl
  | cons u us ih => intro v; exact ih (applyYield u v)

theorem foldl_updField_absorb {α : Type} (os : List (Option α)) :
    ∀ t : Option α, os.foldl updField (os.foldl updField t) = os.foldl updField t := by
  induction os using List.reverseRecOn with
  | nil => intro t; rfl
  | append_singleton l u ih =>
    intro t
    have hstep : ∀ w : Option α, (l ++ [u]).foldl updField w = updField (l.foldl updField w) u := by
      intro w
      rw [List.foldl_append]
      rfl
    rw [hstep, hstep]
    cases u with
    | some x => rfl
    | none =>
      show l.foldl updField (updField (l.foldl updField t) none) = updField (l.foldl updField t) none
      show l.foldl updField (l.foldl updField t) = l.foldl updField t
      exact ih t

/-- `bumpDate` is a maximum where an absent (`NaN`) date is absorbing. -/
def omax (t : Option Nat) (m : Nat) : Option Nat :=
  match t with
  | none => none
  | some a => some (max a m)

theorem bumpDate_eq_omax (t : Option Nat) (m : Nat) : bumpDate t m = omax t m := by
  cases t with
  | none => simp [bumpDate, dateGt, omax]
  | some a =>
    simp only [bumpDate, dateGt, omax]
    split
    · next h =>
      have : a < m := by simpa using h
      congr 1
      omega
    · next h =>
      have : ¬a < m := by simpa using h
      congr 1
      omega

theorem foldl_bumpDate_eq_omax (ms : List Nat) :
    ∀ t, ms.foldl bumpDate t = ms.foldl omax t := by
  induction ms with
  | nil => intro t; rfl
  | cons m ms ih =>
    intro t
    show ms.foldl bumpDate (bumpDate t m) = (m :: ms).foldl omax t
    rw [bumpDate_eq_omax]
    exact ih (omax t m)

theorem foldl_omax_none (ms : List Nat) : ms.foldl omax none = none := by
  induction ms with
  | nil => rfl
  | cons m ms ih => exact ih

theorem foldl_omax_some (ms : List Nat) :
    ∀ a, ms.foldl omax (some a) = some (ms.foldl max a) := by
  induction ms with
  | nil => intro a; rfl
  | cons m ms ih => intro a; exact ih (max a m)

theorem le_foldl_max (ms : List Nat) : ∀ a, a ≤ ms.foldl max a := by
  induction ms with
  | nil => intro a; exact Nat.le_refl a
  | cons m ms ih =>
    intro a
    exact Nat.le_trans (Nat.le_max_left a m) (ih (max a m))

theorem mem_le_foldl_max (ms : List Nat) :
    ∀ (a m : Nat), m ∈ ms → m ≤ ms.foldl max a := by
  induction ms with
  | nil => intro a m h; cases h
  | cons m0 ms ih =>
    intro a m h
    rcases List.mem_cons.mp h with rfl | h2
    · exact Nat.le_trans (Nat.le_max_right a m) (le_foldl_max ms (max a m))
    · exact ih (max a m0) m h2

theorem foldl_max_fix (ms : List Nat) :
    ∀ r, (∀ m ∈ ms, m ≤ r) → ms.foldl max r = r := by
  induction ms with
  | nil => intro r _; rfl
  | cons m ms ih =>
    intro r h
    show ms.foldl max (max r m) = r
    rw [Nat.max_eq_left (h m (List.mem_cons_self m ms))]
    exact ih r fun m2 hm2 => h m2 (List.mem_cons_of_mem m hm2)

theorem foldl_bumpDate_absorb (ms : List Nat) (t : Option Nat) :
    ms.foldl bumpDate (ms.foldl bumpDate t) = ms.foldl bumpDate t := by
  simp only [foldl_bumpDate_eq_omax]
  cases t with
  | none => rw [foldl_omax_none, foldl_omax_none]
  | some a =>
    rw [foldl_omax_some, foldl_omax_some]
    congr 1
    exact foldl_max_fix ms _ fun m hm => mem_le_foldl_max ms a m hm

theorem updFoldY_absorb (us : List ArtifactYield) (v : IssueMetadata) :
    updFoldY us (updFoldY us v) = updFoldY us v := by
  apply IssueMetadata.ext
  · rw [updFoldY_issueNumber, updFoldY_issueNumber]
  · simp only [updFoldY_triageDate]
    exact foldl_bumpDate_absorb _ _
  · rw [updFoldY_reviewStatus, updFoldY_reviewStatus]
  · rw [updFoldY_reviewDate, updFoldY_reviewDate]
  · rw [updFoldY_tags, updFoldY_tags]
  · rw [updFoldY_notes, updFoldY_notes]
  · simp only [updFoldY_shouldClose]
    exact foldl_updField_absorb _ _
  · rw [updFoldY_closed, updFoldY_closed]
  · simp only [updFoldY_title]
    exact foldl_updField_absorb _ _
  · simp only [updFoldY_labels]
    exact foldl_updField_absorb _ _
  · simp only [updFoldY_confidence]
    exact foldl_updField_absorb _ _
  · simp only [updFoldY_model]
    exact foldl_updField_absorb _ _
  · rw [updFoldY_createdAt, updFoldY_createdAt]
  · rw [updFoldY_updatedAt, updFoldY_updatedAt]

theorem chainApply_absorb (files : List ArtifactFile) (k : String) (v : IssueMetadata) :
    chainApply files k (chainApply files k v) = chainApply files k v := by
  simp only [chainApply_eq_updFoldY]
  exact updFoldY_absorb _ _

/-- Characterisation of the records a scan appends. -/
theorem newPart_entry (files : List ArtifactFile) :
    ∀ (seen : List String) (p : String × IssueMetadata), p ∈ newPartStore files seen →
      p.1 ∉ seen ∧ ∃ pre f post, files = pre ++ f :: post ∧ p.1 = f.key ∧
        p.2 = chainApply post f.key
          (applyContent f (newRecord (parseDigits f.key) (some f.mtime))) ∧
        ∀ g ∈ pre, g.key ≠ f.key := by
  induction files with
  | nil => intro seen p hp; simp [newPartStore] at hp
  | cons f0 fs ih =>
    intro seen p hp
    by_cases h : f0.key ∈ seen
    · simp only [newPartStore, h, if_true] at hp
      obtain ⟨hns, pre, f, post, hsp, hk, hv, hpre⟩ := ih seen p hp
      refine ⟨hns, f0 :: pre, f, post, by rw [hsp]; rfl, hk, hv, ?_⟩
      intro g hg
      rcases List.mem_cons.mp hg with rfl | hg2
      · intro he
        apply hns
        rw [hk, ← he]
        exact h
      · exact hpre g hg2
    · simp only [newPartStore, h, if_false] at hp
      rcases List.mem_cons.mp hp with rfl | hp2
      · exact ⟨by simpa using h, [], f0, fs, rfl, rfl, rfl, by simp⟩
      · obtain ⟨hns, pre, f, post, hsp, hk, hv, hpre⟩ := ih (f0.key :: seen) p hp2
        have hns2 : p.1 ∉ seen := fun hh => hns (List.mem_cons_of_mem _ hh)
        have hnsf0 : p.1 ≠ f0.key := by
          intro hh
          exact hns (by rw [hh]; exact List.mem_cons_self _ _)
        refine ⟨hns2, f0 :: pre, f, post, by rw [hsp]; rfl, hk, hv, ?_⟩
        intro g hg
        rcases List.mem_cons.mp hg with rfl | hg2
        · intro he
          exact hnsf0 (hk.trans he.symm)
        · exact hpre g hg2

/-- Every record in a freshly scanned store is a fixed point of the
per-key chain of that same scan. -/
theorem scanStore_entry_fix (files : List ArtifactFile) (s : Store) :
    ∀ p ∈ scanStore files s, chainApply files p.1 p.2 = p.2 := by
  intro p hp
  rw [scanStore_decomp] at hp
  rcases List.mem_append.mp hp with hp1 | hp2
  · obtain ⟨q, _, rfl⟩ := List.mem_map.mp hp1
    exact chainApply_absorb files q.1 q.2
  · obtain ⟨_, pre, f, post, hsp, hk, hv, hpre⟩ := newPart_entry files (keysOf s) p hp2
    have hcons : ∀ w, chainApply (f :: post) f.key w = chainApply post f.key (applyContent f w) := by
      intro w
      rw [chainApply_cons, if_pos rfl]
    have habs := chainApply_absorb (f :: post) f.key
      (newRecord (parseDigits f.key) (some f.mtime))
    rw [hcons, hcons] at habs
    rw [hsp, hk, chainApply_append]
    rw [chainApply_no_key pre f.key p.2 hpre]
    rw [hcons, hv]
    exact habs

/-- A second scan of an unchanged filesystem leaves the store unchanged. -/
theorem scanStore_idem (files : List ArtifactFile) (s : Store) :
    scanStore files (scanStore files s) = scanStore files s := by
  rw [scanStore_decomp files (scanStore files s)]
  rw [newPartStore_nil files _ (fun f hf => scanStore_sees_keys files s f hf)]
  rw [List.append_nil]
  have hfix : ∀ p ∈ scanStore files s, (fun p => (p.1, chainApply files p.1 p.2)) p = p := by
    intro p hp
    have := scanStore_entry_fix files s p hp
    simp [this]
  calc (scanStore files s).map (fun p => (p.1, chainApply files p.1 p.2))
      = (scanStore files s).map id := List.map_congr_left hfix
    _ = scanStore files s := List.map_id _

/-- C5: artifact reconciliation is idempotent.  Running
`scanForNewIssues` a second time with the filesystem unchanged produces a
store equal, entry for entry and in the same property order, to the first
run's output; since the persisted JSON is a deterministic serialisation of
the store in property order (and `loadMetadata` restores exactly what
`saveMetadata` wrote), the persisted metadata of the second run is
byte-identical to the first run's. -/
theorem claim_C5_scan_idempotent (files : List ArtifactFile) (s : Store) :
    scanStore files (scanStore files s) = scanStore files s :=
  scanStore_idem files s

/-- A record update that leaves every artifact-derived field alone stays a
fixed point of the scan chain. -/
theorem chainApply_fix_update (files : List ArtifactFile) (k0 : String)
    (v : IssueMetadata) (g : IssueMetadata → IssueMetadata)
    (hfix : chainApply files k0 v = v)
    (h1 : (g v).triageDate = v.triageDate) (h2 : (g v).title = v.title)
    (h3 : (g v).shouldClose = v.shouldClose) (h4 : (g v).labels = v.labels)
    (h5 : (g v).confidence = v.confidence) (h6 : (g v).model = v.model) :
    chainApply files k0 (g v) = g v := by
  rw [chainApply_eq_updFoldY] at hfix ⊢
  apply IssueMetadata.ext
  · rw [updFoldY_issueNumber]
  · have hv := congrArg IssueMetadata.triageDate hfix
    rw [updFoldY_triageDate] at hv
    rw [updFoldY_triageDate, h1, hv]
  · rw [updFoldY_reviewStatus]
  · rw [updFoldY_reviewDate]
  · rw [updFoldY_tags]
  · rw [updFoldY_notes]
  · have hv := congrArg IssueMetadata.shouldClose hfix
    rw [updFoldY_shouldClose] at hv
    rw [updFoldY_shouldClose, h3, hv]
  · rw [updFoldY_closed]
  · have hv := congrArg IssueMetadata.title hfix
    rw [updFoldY_title] at hv
    rw [updFoldY_title, h2, hv]
  · have hv := congrArg IssueMetadata.labels hfix
    rw [updFoldY_labels] at hv
    rw [updFoldY_labels, h4, hv]
  · have hv := congrArg IssueMetadata.confidence hfix
    rw [updFoldY_confidence] at hv
    rw [updFoldY_confidence, h5, hv]
  · have hv := congrArg IssueMetadata.model hfix
    rw [updFoldY_model] at hv
    rw [updFoldY_model, h6, hv]
  · rw [updFoldY_createdAt]
  · rw [updFoldY_updatedAt]

/-- Rescanning after a review-fields-only update of a freshly scanned
store changes nothing: the rescan inside `markAsRead`,
`markClosedOnGitHub` and friends is a no-op on the store they just
produced. -/
theorem scanStore_stable_update (files : List ArtifactFile) (s : Store) (k : String)
    (g : IssueMetadata → IssueMetadata)
    (hg : ∀ v, (g v).triageDate = v.triageDate ∧ (g v).title = v.title ∧
      (g v).shouldClose = v.shouldClose ∧ (g v).labels = v.labels ∧
      (g v).confidence = v.confidence ∧ (g v).model = v.model) :
    scanStore files (updateIssue (scanStore files s) k g) =
      updateIssue (scanStore files s) k g := by
  rw [scanStore_decomp files (updateIssue (scanStore files s) k g), keysOf_updateIssue]
  rw [newPartStore_nil files _ (fun f hf => scanStore_sees_keys files s f hf)]
  rw [List.append_nil]
  have hfix : ∀ p ∈ updateIssue (scanStore files s) k g,
      (fun p => (p.1, chainApply files p.1 p.2)) p = p := by
    intro p hp
    unfold updateIssue at hp
    obtain ⟨q, hq, hpq⟩ := List.mem_map.mp hp
    have hqfix : chainApply files q.1 q.2 = q.2 := scanStore_entry_fix files s q hq
    by_cases hk : q.1 = k
    · rw [← hpq]
      simp only [hk, if_pos]
      obtain ⟨h1, h2, h3, h4, h5, h6⟩ := hg q.2
      have := chainApply_fix_update files q.1 q.2 g hqfix h1 h2 h3 h4 h5 h6
      simp only [hk] at this ⊢
      simp [this]
    · rw [← hpq]
      simp only [hk, if_neg, if_false]
      simp [hqfix]
  calc (updateIssue (scanStore files s) k g).map (fun p => (p.1, chainApply files p.1 p.2))
      = (updateIssue (scanStore files s) k g).map id := List.map_congr_left hfix
    _ = updateIssue (scanStore files s) k g := List.map_id _

/-- C4: the per-record action of `syncClosedIssues` on a remotely closed
item with a local triage artifact, whose store record (after the inbox
rescan) is `m`: an unread record is promoted to read (review date set)
and marked remotely closed, counted as updated; a read record not yet
marked closed gets only `closedOnGitHub := true`, review state unchanged,
counted as updated; a read record already marked closed is counted as
already consistent and its record is not mutated (the store undergoes only
the inbox rescan itself). -/
theorem claim_C4_sync_closed_record_action (files : List ArtifactFile) (now n : Nat)
    (s : Store) (m : IssueMetadata)
    (hfind : (inboxAll files s).find? (fun r => r.issueNumber == n) = some m)
    (hlook : lookupIssue (scanStore files s) (numKey n) = some m) :
    (m.reviewStatus = ReviewStatus.unread →
      (syncIssueStep files now n s).2 = SyncAction.updated ∧
      lookupIssue (syncIssueStep files now n s).1 (numKey n) =
        some { m with reviewStatus := ReviewStatus.read, reviewDate := some now,
                      closedOnGitHub := some true }) ∧
    (m.reviewStatus = ReviewStatus.read → m.closedOnGitHub ≠ some true →
      (syncIssueStep files now n s).2 = SyncAction.updated ∧
      lookupIssue (syncIssueStep files now n s).1 (numKey n) =
        some { m with closedOnGitHub := some true }) ∧
    (m.reviewStatus = ReviewStatus.read → m.closedOnGitHub = some true →
      (syncIssueStep files now n s).2 = SyncAction.alreadyMarked ∧
      (syncIssueStep files now n s).1 = scanStore files s ∧
      lookupIssue (syncIssueStep files now n s).1 (numKey n) = some m) := by
  have hidem : scanStore files (scanStore files s) = scanStore files s :=
    scanStore_idem files s
  refine ⟨?_, ?_, ?_⟩
  · intro hm
    have hstep : syncIssueStep files now n s =
        (markClosedOnGitHub files n true (markAsRead files now n (scanStore files s)),
          SyncAction.updated) := by
      simp only [syncIssueStep, hfind, hm, if_true]
    have hread : markAsRead files now n (scanStore files s) =
        updateIssue (scanStore files s) (numKey n)
          (fun i => { i with reviewStatus := ReviewStatus.read, reviewDate := some now }) := by
      simp only [markAsRead, hidem, hlook]
    have hstab : scanStore files (markAsRead files now n (scanStore files s)) =
        markAsRead files now n (scanStore files s) := by
      rw [hread]
      exact scanStore_stable_update files s (numKey n) _ (fun v => by
        exact ⟨rfl, rfl, rfl, rfl, rfl, rfl⟩)
    have hlook2 : lookupIssue (markAsRead files now n (scanStore files s)) (numKey n) =
        some { m with reviewStatus := ReviewStatus.read, reviewDate := some now } := by
      rw [hread, lookupIssue_updateIssue, if_pos rfl, hlook]
      rfl
    have hclosed : markClosedOnGitHub files n true (markAsRead files now n (scanStore files s)) =
        updateIssue (markAsRead files now n (scanStore files s)) (numKey n)
          (fun i => { i with closedOnGitHub := some true }) := by
      simp only [markClosedOnGitHub, hstab, hlook2]
    rw [hstep]
    refine ⟨rfl, ?_⟩
    show lookupIssue (markClosedOnGitHub files n true
      (markAsRead files now n (scanStore files s))) (numKey n) = _
    rw [hclosed, lookupIssue_updateIssue, if_pos rfl, hlook2]
    rfl
  · intro hm hc
    have hmne : ¬m.reviewStatus = ReviewStatus.unread := by
      rw [hm]
      intro hh
      cases hh
    have hstep : syncIssueStep files now n s =
        (markClosedOnGitHub files n true (scanStore files s), SyncAction.updated) := by
      simp only [syncIssueStep, hfind, hmne, if_false]
      rw [if_pos hc]
    have hclosed : markClosedOnGitHub files n true (scanStore files s) =
        updateIssue (scanStore files s) (numKey n)
          (fun i => { i with closedOnGitHub := some true }) := by
      simp only [markClosedOnGitHub, hidem, hlook]
    rw [hstep]
    refine ⟨rfl, ?_⟩
    show lookupIssue (markClosedOnGitHub files n true (scanStore files s)) (numKey n) = _
    rw [hclosed, lookupIssue_updateIssue, if_pos rfl, hlook]
    rfl
  · intro hm hc
    have hmne : ¬m.reviewStatus = ReviewStatus.unread := by
      rw [hm]
      intro hh
      cases hh
    have hcne : ¬m.closedOnGitHub ≠ some true := by
      simp [hc]
    have hstep : syncIssueStep files now n s =
        (scanStore files s, SyncAction.alreadyMarked) := by
      simp only [syncIssueStep, hfind, hmne, if_false, hcne]
    rw [hstep]
    exact ⟨rfl, rfl, hlook⟩

def c4Store : Store := [("7", newRecord 7 (some 1))]

theorem claim_C4_witness :
    (syncIssueStep [] 9 7 c4Store).2 = SyncAction.updated ∧
    lookupIssue (syncIssueStep [] 9 7 c4Store).1 (numKey 7) =
      some { newRecord 7 (some 1) with
             reviewStatus := ReviewStatus.read,
             reviewDate := some 9,
             closedOnGitHub := some true } := by
  have hfind : (inboxAll [] c4Store).find? (fun r => r.issueNumber == 7) =
      some (newRecord 7 (some 1)) := by
    simp [inboxAll, c4Store, scanStore, List.mergeSort, newRecord]
  have hlook : lookupIssue (scanStore [] c4Store) (numKey 7) =
      some (newRecord 7 (some 1)) := by
    decide
  exact (claim_C4_sync_closed_record_action [] 9 7 c4Store (newRecord 7 (some 1))
    hfind hlook).1 rfl

/-- C9 (amended): a mutation on an issue number with no record returns
normally and performs nothing beyond its initial artifact rescan:
`markAsRead`, `markAsUnread` and `markClosedOnGitHub` return exactly the
rescanned store (so when the store already reflects the artifact files
they change nothing at all), and `addNote`/`addTags`, which do not rescan,
change nothing unconditionally. -/
theorem claim_C9_amended_unknown_key_noop (files : List ArtifactFile) (now n : Nat)
    (b : Bool) (txt : String) (ts : List String) (s : Store) :
    (lookupIssue (scanStore files s) (numKey n) = none →
      markAsRead files now n s = scanStore files s ∧
      markAsUnread files n s = scanStore files s ∧
      markClosedOnGitHub files n b s = scanStore files s) ∧
    (lookupIssue s (numKey n) = none →
      addNote n txt s = s ∧ addTags n ts s = s) ∧
    (scanStore files s = s → lookupIssue s (numKey n) = none →
      markAsRead files now n s = s ∧ markAsUnread files n s = s ∧
      markClosedOnGitHub files n b s = s) := by
  refine ⟨?_, ?_, ?_⟩
  · intro h
    exact ⟨by simp only [markAsRead, h], by simp only [markAsUnread, h],
      by simp only [markClosedOnGitHub, h]⟩
  · intro h
    exact ⟨by simp only [addNote, h], by simp only [addTags, h]⟩
  · intro hstable h
    have h2 : lookupIssue (scanStore files s) (numKey n) = none := by rw [hstable]; exact h
    refine ⟨?_, ?_, ?_⟩
    · rw [(by simp only [markAsRead, h2] : markAsRead files now n s = scanStore files s),
        hstable]
    · rw [(by simp only [markAsUnread, h2] : markAsUnread files n s = scanStore files s),
        hstable]
    · rw [(by simp only [markClosedOnGitHub, h2] :
        markClosedOnGitHub files n b s = scanStore files s), hstable]

def c9File : ArtifactFile :=
  { key := "5", mtime := 1, content := ("# Issue #5: new".toList), debugModel := none }

def c9Rec : IssueMetadata := { newRecord 5 (some 1) with title := some "old" }

/-- C9 counterexample: `markAsRead(99)` with no record and no artifact for
issue 99 still rescans the artifact directory, and that rescan rewrites
the title of the existing record 5 from the artifact — so the operation
does not leave the content of every existing record unchanged. -/
theorem claim_C9_counterexample :
    lookupIssue [("5", c9Rec)] (numKey 99) = none ∧
    lookupIssue (scanStore [c9File] [("5", c9Rec)]) (numKey 99) = none ∧
    (lookupIssue [("5", c9Rec)] "5").map (fun r => r.title) = some (some "old") ∧
    (lookupIssue (markAsRead [c9File] 100 99 [("5", c9Rec)]) "5").map (fun r => r.title) =
      some (some "new") := by
  decide

theorem claim_C9_witness :
    addNote 99 "x" [("5", newRecord 5 (some 1))] = [("5", newRecord 5 (some 1))] ∧
    markAsRead [] 3 99 [("5", newRecord 5 (some 1))] = [("5", newRecord 5 (some 1))] := by
  have h := claim_C9_amended_unknown_key_noop [] 3 99 true "x" [] [("5", newRecord 5 (some 1))]
  exact ⟨(h.2.1 (by decide)).1, (h.2.2 (by rfl) (by decide)).1⟩

theorem mem_dedupFirstAux (l : List String) :
    ∀ (seen : List String) (x : String),
      x ∈ dedupFirstAux seen l ↔ (x ∈ l ∧ x ∉ seen) := by
  induction l with
  | nil => intro seen x; simp [dedupFirstAux]
  | cons a l ih =>
    intro seen x
    by_cases ha : a ∈ seen
    · simp only [dedupFirstAux, ha, if_true]
      rw [ih seen x]
      constructor
      · rintro ⟨hx1, hx2⟩
        exact ⟨List.mem_cons_of_mem a hx1, hx2⟩
      · rintro ⟨hx1, hx2⟩
        rcases List.mem_cons.mp hx1 with rfl | hx3
        · exact absurd ha hx2
        · exact ⟨hx3, hx2⟩
    · simp only [dedupFirstAux, ha, if_false]
      rw [List.mem_cons, ih (a :: seen) x]
      constructor
      · rintro (rfl | ⟨hx1, hx2⟩)
        · exact ⟨List.mem_cons_self _ _, ha⟩
        · exact ⟨List.mem_cons_of_mem a hx1,
            fun hh => hx2 (List.mem_cons_of_mem a hh)⟩
      · rintro ⟨hx1, hx2⟩
        rcases List.mem_cons.mp hx1 with rfl | hx3
        · exact Or.inl rfl
        · by_cases hxa : x = a
          · exact Or.inl hxa
          · exact Or.inr ⟨hx3, by
              intro hh
              rcases List.mem_cons.mp hh with hh2 | hh2
              · exact hxa hh2
              · exact hx2 hh2⟩

theorem nodup_dedupFirstAux (l : List String) :
    ∀ seen : List String, (dedupFirstAux seen l).Nodup := by
  induction l with
  | nil => intro seen; simp [dedupFirstAux]
  | cons a l ih =>
    intro seen
    by_cases ha : a ∈ seen
    · simp only [dedupFirstAux, ha, if_true]
      exact ih seen
    · simp only [dedupFirstAux, ha, if_false]
      refine List.nodup_cons.mpr ⟨?_, ih (a :: seen)⟩
      rw [mem_dedupFirstAux]
      rintro ⟨_, hns⟩
      exact hns (List.mem_cons_self a seen)

theorem dedupFirstAux_sub_nil (ts : List String) :
    ∀ seen : List String, (∀ x ∈ ts, x ∈ seen) → dedupFirstAux seen ts = [] := by
  induction ts with
  | nil => intro seen _; rfl
  | cons a ts ih =>
    intro seen h
    simp only [dedupFirstAux, h a (List.mem_cons_self a ts), if_true]
    exact ih seen fun x hx => h x (List.mem_cons_of_mem a hx)

theorem dedupFirstAux_append_absorb :
    ∀ (d ts seen : List String), d.Nodup → (∀ x ∈ d, x ∉ seen) →
      (∀ x ∈ ts, x ∈ d ∨ x ∈ seen) → dedupFirstAux seen (d ++ ts) = d := by
  intro d
  induction d with
  | nil =>
    intro ts seen _ _ h
    exact dedupFirstAux_sub_nil ts seen fun x hx => (h x hx).resolve_left (by simp)
  | cons a d ih =>
    intro ts seen hnd hseen h
    have ha : a ∉ seen := hseen a (List.mem_cons_self a d)
    show dedupFirstAux seen (a :: (d ++ ts)) = a :: d
    simp only [dedupFirstAux, ha, if_false]
    congr 1
    apply ih ts (a :: seen) (List.nodup_cons.mp hnd).2
    · intro x hx
      intro hh
      rcases List.mem_cons.mp hh with rfl | hh2
      · exact (List.nodup_cons.mp hnd).1 hx
      · exact hseen x (List.mem_cons_of_mem a hx) hh2
    · intro x hx
      rcases h x hx with hx2 | hx2
      · rcases List.mem_cons.mp hx2 with rfl | hx3
        · exact Or.inr (List.mem_cons_self x seen)
        · exact Or.inl hx3
      · exact Or.inr (List.mem_cons_of_mem a hx2)

theorem mem_dedupFirst (l : List String) (x : String) :
    x ∈ dedupFirst l ↔ x ∈ l := by
  rw [dedupFirst, mem_dedupFirstAux]
  simp

theorem nodup_dedupFirst (l : List String) : (dedupFirst l).Nodup :=
  nodup_dedupFirstAux l []

theorem dedupFirst_absorb (old ts : List String) :
    dedupFirst (dedupFirst (old ++ ts) ++ ts) = dedupFirst (old ++ ts) := by
  apply dedupFirstAux_append_absorb
  · exact nodup_dedupFirst (old ++ ts)
  · simp
  · intro x hx
    exact Or.inl ((mem_dedupFirst (old ++ ts) x).mpr (List.mem_append_right old hx))

theorem updateIssue_updateIssue (s : Store) (k : String)
    (g1 g2 : IssueMetadata → IssueMetadata) :
    updateIssue (updateIssue s k g1) k g2 = updateIssue s k (fun v => g2 (g1 v)) := by
  unfold updateIssue
  rw [List.map_map]
  apply List.map_congr_left
  intro p _
  by_cases h : p.1 = k <;> simp [Function.comp, h]

/-- C10: `addTags` computes a duplicate-free union.  On an existing record
the new tag list is the first-occurrence deduplication of old tags
followed by the added tags: it is duplicate-free, contains exactly the old
and the added tags, and repeating the same `addTags` call changes nothing
(idempotence). -/
theorem claim_C10_addTags_dedup_union (n : Nat) (ts : List String) (s : Store)
    (v : IssueMetadata) (hv : lookupIssue s (numKey n) = some v) :
    (∃ r, lookupIssue (addTags n ts s) (numKey n) = some r ∧
      r.tags = some (dedupFirst ((v.tags.getD []) ++ ts)) ∧
      (dedupFirst ((v.tags.getD []) ++ ts)).Nodup ∧
      (∀ x, x ∈ dedupFirst ((v.tags.getD []) ++ ts) ↔
        x ∈ v.tags.getD [] ∨ x ∈ ts)) ∧
    addTags n ts (addTags n ts s) = addTags n ts s := by
  have hgg : ∀ w : IssueMetadata, addTagsFn ts (addTagsFn ts w) = addTagsFn ts w := by
    intro w
    apply IssueMetadata.ext <;> simp [addTagsFn, dedupFirst_absorb]
  have heq : ∀ (t : Store) (w : IssueMetadata), lookupIssue t (numKey n) = some w →
      addTags n ts t = updateIssue t (numKey n) (addTagsFn ts) := by
    intro t w hw
    simp only [addTags, hw]
  have h1 : addTags n ts s = updateIssue s (numKey n) (addTagsFn ts) :=
    heq s v hv
  have h2 : lookupIssue (addTags n ts s) (numKey n) = some (addTagsFn ts v) := by
    rw [h1, lookupIssue_updateIssue, if_pos rfl, hv]
    rfl
  constructor
  · rw [h2]
    refine ⟨_, rfl, rfl, nodup_dedupFirst _, ?_⟩
    intro x
    rw [mem_dedupFirst]
    simp
  · rw [heq (addTags n ts s) (addTagsFn ts v) h2, h1, updateIssue_updateIssue]
    congr 1
    funext w
    exact hgg w

def c10Rec : IssueMetadata := { newRecord 5 (some 1) with tags := some ["a"] }

theorem claim_C10_witness :
    ∃ r, lookupIssue (addTags 5 ["b", "a"] [("5", c10Rec)]) (numKey 5) = some r ∧
      r.tags = some (dedupFirst ((c10Rec.tags.getD []) ++ ["b", "a"])) ∧
      (dedupFirst ((c10Rec.tags.getD []) ++ ["b", "a"])).Nodup ∧
      (∀ x, x ∈ dedupFirst ((c10Rec.tags.getD []) ++ ["b", "a"]) ↔
        x ∈ c10Rec.tags.getD [] ∨ x ∈ ["b", "a"]) :=
  (claim_C10_addTags_dedup_union 5 ["b", "a"] [("5", c10Rec)] c10Rec (by decide)).1

theorem scanFirst_of_head {α : Type} (f : List Char → Option α) (s : List Char)
    (a : α) (h : f s = some a) : scanFirst f s = some a := by
  cases s with
  | nil => exact h
  | cons c r => simp [scanFirst, h, Option.orElse]

theorem matchCI_of_lower :
    ∀ (p s rest : List Char), s.map lowerChar = p.map lowerChar →
      matchCI p (s ++ rest) = some rest := by
  intro p
  induction p with
  | nil =>
    intro s rest h
    have hs : s = [] := by
      cases s with
      | nil => rfl
      | cons c cs => simp at h
    rw [hs]
    rfl
  | cons pc pcs ih =>
    intro s rest h
    cases s with
    | nil => simp at h
    | cons c cs =>
      simp only [List.map_cons, List.cons.injEq] at h
      show matchCI (pc :: pcs) (c :: (cs ++ rest)) = some rest
      simp only [matchCI, h.1, if_pos]
      exact ih cs rest h.2

theorem capCI_of_lower (pat w rest : List Char)
    (h : w.map lowerChar = pat.map lowerChar) : capCI pat (w ++ rest) = some w := by
  unfold capCI
  rw [matchCI_of_lower pat w rest h]
  have hlen : pat.length = w.length := by
    have := congrArg List.length h
    simpa using this.symm
  rw [hlen, List.take_left]

/-- C8: parsing tolerates absent fields.  Scanning an artifact whose body
has no `CONFIDENCE:` marker leaves the new record's `confidence` field
absent (not defaulted), while every field whose marker does match is
populated (title heading into `title`, `SHOULD_CLOSE` into `shouldClose`,
`LABELS` into `labels`); the scan is a total function, so no exception is
raised.  The enum matchers are case-insensitive: `CONFIDENCE:` followed by
any ASCII casing of `high` matches and captures the original text. -/
theorem claim_C8_absent_confidence_tolerated (f : ArtifactFile) (s : Store)
    (hconf : confMatch f.content = none)
    (hfresh : lookupIssue s f.key = none) :
    (∃ r, lookupIssue (scanStore [f] s) f.key = some r ∧
      r.confidence = none ∧
      (∀ t, titleMatch f.content = some t → r.title = some (String.mk (jsTrim t))) ∧
      (∀ b, scMatch f.content = some b → r.shouldClose = some b) ∧
      (∀ cap, labelsMatch f.content = some cap → r.labels = some (parseLabels cap))) ∧
    (∀ (c1 c2 c3 c4 : Char) (rest : List Char),
      (c1 = 'h' ∨ c1 = 'H') → (c2 = 'i' ∨ c2 = 'I') →
      (c3 = 'g' ∨ c3 = 'G') → (c4 = 'h' ∨ c4 = 'H') →
      confMatch (("CONFIDENCE:".toList) ++ (' ' :: ([c1, c2, c3, c4] ++ rest))) =
        some [c1, c2, c3, c4]) := by
  constructor
  · have hscan : lookupIssue (scanStore [f] s) f.key =
        some (applyContent f (newRecord (parseDigits f.key) (some f.mtime))) := by
      show lookupIssue (scanFile s f) f.key = _
      rw [scanFile_lookup_same, hfresh]
      rfl
    refine ⟨_, hscan, ?_, ?_, ?_, ?_⟩
    · show updField (newRecord (parseDigits f.key) (some f.mtime)).confidence
        ((confMatch f.content).map String.mk) = none
      rw [hconf]
      rfl
    · intro t ht
      show updField (newRecord (parseDigits f.key) (some f.mtime)).title
        ((titleMatch f.content).map (fun t => String.mk (jsTrim t))) = _
      rw [ht]
      rfl
    · intro b hb
      show updField (newRecord (parseDigits f.key) (some f.mtime)).shouldClose
        (scMatch f.content) = _
      rw [hb]
      rfl
    · intro cap hcap
      show updField (newRecord (parseDigits f.key) (some f.mtime)).labels
        ((labelsMatch f.content).map parseLabels) = _
      rw [hcap]
      rfl
  · intro c1 c2 c3 c4 rest h1 h2 h3 h4
    have hws1 : isJsWs c1 = false := by
      rcases h1 with rfl | rfl <;> decide
    have hmap : [c1, c2, c3, c4].map lowerChar = ("high".toList).map lowerChar := by
      rcases h1 with rfl | rfl <;> rcases h2 with rfl | rfl <;>
        rcases h3 with rfl | rfl <;> rcases h4 with rfl | rfl <;> decide
    apply scanFirst_of_head
    unfold confAt
    have hm : matchCI ("confidence:".toList)
        (("CONFIDENCE:".toList) ++ (' ' :: ([c1, c2, c3, c4] ++ rest))) =
        some (' ' :: ([c1, c2, c3, c4] ++ rest)) := by
      apply matchCI_of_lower
      decide
    rw [hm]
    dsimp only
    have hdrop : (' ' :: ([c1, c2, c3, c4] ++ rest)).dropWhile isJsWs =
        [c1, c2, c3, c4] ++ rest := by
      rw [List.dropWhile_cons]
      rw [if_pos (by decide)]
      cases hrest : [c1, c2, c3, c4] ++ rest with
      | nil => simp at hrest
      | cons d ds =>
        have hd : d = c1 := by
          simp only [List.cons_append, List.cons.injEq] at hrest
          exact hrest.1.symm
        rw [List.dropWhile_cons, if_neg (by rw [hd, hws1]; simp)]
    rw [hdrop]
    rw [capCI_of_lower ("high".toList) [c1, c2, c3, c4] rest hmap]
    rfl

def c8File : ArtifactFile :=
  { key := "42",
    mtime := 5,
    content :=
      ("# Issue #42: Crash on save\nSHOULD_CLOSE: Yes\nLABELS: bug, p1\n".toList),
    debugModel := none }

theorem claim_C8_witness :
    (∃ r, lookupIssue (scanStore [c8File] []) "42" = some r ∧
      r.confidence = none ∧
      (∀ t, titleMatch c8File.content = some t → r.title = some (String.mk (jsTrim t))) ∧
      (∀ b, scMatch c8File.content = some b → r.shouldClose = some b) ∧
      (∀ cap, labelsMatch c8File.content = some cap → r.labels = some (parseLabels cap))) ∧
    confMatch (("CONFIDENCE:".toList) ++ (' ' :: (['H', 'I', 'G', 'H'] ++ []))) =
      some ['H', 'I', 'G', 'H'] := by
  have h := claim_C8_absent_confidence_tolerated c8File [] (by decide) (by decide)
  exact ⟨h.1, h.2 'H' 'I' 'G' 'H' [] (Or.inr rfl) (Or.inr rfl) (Or.inr rfl) (Or.inr rfl)⟩

end TriageSpec
